import Mathlib

/-!
Verification development for the billman repository: a shallow embedding of
the WhatsApp-chat transaction parser (src/lib/services/whatsappParser.ts) and
the billing-period service (src/lib/services/billingService.ts), with theorems
settling the specification claims about them.

Conventions of the embedding:
* JavaScript strings are modelled as List Char (Bengali code points are in the
  basic multilingual plane, so one UTF-16 unit corresponds to one Char).
* JavaScript numbers are modelled as Rat; the amounts handled by the parser are
  decimals with at most two fraction digits, which Rat represents exactly.
* A JavaScript Date is modelled in two equivalent ways.  In the parser, where
  dates flow into getTime-based arithmetic, a date is its epoch-milliseconds
  value (an Int), computed by the civil-calendar conversion that the JS engine
  performs (epochMsOfCivil below).  In the billing service, where dates are
  built componentwise and compared, a date is the quadruple of its normalized
  components (getFullYear, getMonth, getDate, ms within the day); for such
  normalized components, timestamp order is lexicographic order on the
  quadruple, which Dte.le / Dte.lt implement.
-/

/-! ### Characters and strings -/

/-- Strings as lists of characters. -/
abbrev Str := List Char

/-- Whitespace characters recognised by the JS regex class backslash-s, restricted
to the code points that occur in chat exports. -/
def isWs (c : Char) : Bool :=
  c = ' ' || c = '\t' || c = '\n' || c = '\r'

/-- ASCII decimal digit (JS regex class backslash-d). -/
def isDigitC (c : Char) : Bool :=
  '0' ≤ c && c ≤ '9'

/-- ASCII Latin letter (the a-zA-Z part of the parser character classes). -/
def isLatin (c : Char) : Bool :=
  ('a' ≤ c && c ≤ 'z') || ('A' ≤ c && c ≤ 'Z')

/-- Bengali-block code point (u0980-u09FF, as used in the parser regexes). -/
def isBengali (c : Char) : Bool :=
  0x0980 ≤ c.toNat && c.toNat ≤ 0x09FF

/-- JS regex word character backslash-w: ASCII letters, digits, underscore. -/
def isWordC (c : Char) : Bool :=
  isLatin c || isDigitC c || c = '_'

/-- Character used by the parser patterns [a-zA-Z u0980-u09FF]. -/
def isLetterC (c : Char) : Bool :=
  isLatin c || isBengali c

/-- JS String.prototype.toLowerCase restricted to ASCII (the only cased
characters appearing in the data; Bengali has no case). -/
def lowerC (c : Char) : Char :=
  if 'A' ≤ c && c ≤ 'Z' then Char.ofNat (c.toNat + 32) else c

/-- Lowercase a string (JS toLowerCase). -/
def strLower (s : Str) : Str := s.map lowerC

/-- JS String.prototype.trim. -/
def trimS (s : Str) : Str :=
  ((s.dropWhile isWs).reverse.dropWhile isWs).reverse

/-- Does the string consist of one or more decimal digits (JS regex ^ digits+ $)? -/
def allDigits (s : Str) : Bool :=
  !s.isEmpty && s.all isDigitC

/-- Numeric value of a digit string (JS Number / parseInt on a digit string). -/
def natOfDigits (s : Str) : Nat :=
  s.foldl (fun n c => n * 10 + (c.toNat - 48)) 0

/-! ### JS rounding and decimal parsing -/

/-- JS Math.round: round half toward positive infinity. -/
def jsRound (q : ℚ) : ℤ := ⌊q + 1 / 2⌋

/-- Math.round(x * 100) / 100, the two-decimal rounding used by the billing
service. -/
def round2 (q : ℚ) : ℚ := (jsRound (q * 100) : ℚ) / 100

/-- parseFloat on a string matching digits+ (. digits+)? — an exact decimal. -/
def parseDecimal (s : Str) : ℚ :=
  let intPart := s.takeWhile isDigitC
  let rest := s.dropWhile isDigitC
  match rest with
  | '.' :: frac => (natOfDigits intPart : ℚ) +
      (natOfDigits (frac.takeWhile isDigitC) : ℚ) / ((10 : ℚ) ^ (frac.takeWhile isDigitC).length)
  | _ => (natOfDigits intPart : ℚ)

/-! ### Dates

A JS Date constructed as new Date(y, m, d, h, mi) normalizes its month as
y + floor(m / 12), m mod 12 and then interprets d as an offset from the first
of that month.  getTime converts the civil components to epoch days by the
standard civil-from-days algorithm. -/

/-- Days from the epoch 1970-01-01 of the date (y, m, d) where m is 1-based
and d may lie outside the month (JS-style linear day offset).  Standard
civil-calendar conversion. -/
def daysFromCivil (y m d : Int) : Int :=
  let y2 := if m ≤ 2 then y - 1 else y
  let era := y2 / 400
  let yoe := y2 - era * 400
  let mp := (m + 9) % 12
  let doy := (153 * mp + 2) / 5 + (d - 1)
  let doe := yoe * 365 + yoe / 4 - yoe / 100 + doy
  era * 146097 + doe - 719468

/-- Epoch milliseconds of new Date(y, mo, d, h, mi) with mo 0-based, exactly as
the JS engine computes it (month normalization, then linear day/time offsets).
The engine additionally subtracts the constant local-timezone offset, which
shifts every timestamp equally and is omitted. -/
def epochMsOfCivil (y mo d h mi : Int) : Int :=
  daysFromCivil (y + mo / 12) (mo % 12 + 1) d * 86400000 +
    h * 3600000 + mi * 60000

/-- A JS Date by its normalized components: getFullYear, getMonth (0-11),
getDate (1-31) and the milliseconds elapsed within the day.  Every real JS
Date has components in these ranges; for such components, timestamp order is
lexicographic order on the quadruple. -/
structure Dte where
  year : Int
  month : Int
  day : Int
  timeMs : Int
deriving Repr, DecidableEq

/-- Timestamp strict order on dates (lexicographic on normalized components). -/
def Dte.lt (a b : Dte) : Prop :=
  a.year < b.year ∨ (a.year = b.year ∧ (a.month < b.month ∨ (a.month = b.month ∧
    (a.day < b.day ∨ (a.day = b.day ∧ a.timeMs < b.timeMs)))))

/-- Timestamp order on dates (lexicographic on normalized components). -/
def Dte.le (a b : Dte) : Prop :=
  a.year < b.year ∨ (a.year = b.year ∧ (a.month < b.month ∨ (a.month = b.month ∧
    (a.day < b.day ∨ (a.day = b.day ∧ a.timeMs ≤ b.timeMs)))))

instance (a b : Dte) : Decidable (Dte.lt a b) := by
  unfold Dte.lt; infer_instance

instance (a b : Dte) : Decidable (Dte.le a b) := by
  unfold Dte.le; infer_instance

theorem dle_refl (a : Dte) : Dte.le a a :=
  Or.inr ⟨rfl, Or.inr ⟨rfl, Or.inr ⟨rfl, le_refl _⟩⟩⟩

theorem dle_trans {a b c : Dte} (h1 : Dte.le a b) (h2 : Dte.le b c) : Dte.le a c := by
  simp only [Dte.le] at *; by_contra hc; push_neg at hc; omega

theorem dle_of_lt {a b : Dte} (h : Dte.lt a b) : Dte.le a b := by
  simp only [Dte.le, Dte.lt] at *; by_contra hc; push_neg at hc; omega

theorem dlt_of_le_of_lt {a b c : Dte} (h1 : Dte.le a b) (h2 : Dte.lt b c) : Dte.lt a c := by
  simp only [Dte.le, Dte.lt] at *; by_contra hc; push_neg at hc; omega

theorem dlt_of_lt_of_le {a b c : Dte} (h1 : Dte.lt a b) (h2 : Dte.le b c) : Dte.lt a c := by
  simp only [Dte.le, Dte.lt] at *; by_contra hc; push_neg at hc; omega

theorem dlt_or_ge (a b : Dte) : Dte.lt a b ∨ Dte.le b a := by
  simp only [Dte.le, Dte.lt]; by_contra hc; push_neg at hc; omega

theorem not_dle_of_lt {a b : Dte} (h : Dte.lt a b) : ¬ Dte.le b a := by
  simp only [Dte.le, Dte.lt] at *; intro h2; by_contra hc; omega

/-- new Date(y, m, d) for day values 1..28: JS normalizes the month into the
year (floor division) and the day needs no further rollover because every month
has at least 28 days.  The billing service only ever constructs days 14 and 15
this way. -/
def mkD (y m d : Int) : Dte :=
  ⟨y + m / 12, m % 12, d, 0⟩

theorem mkD_month_bounds (y m d : Int) : 0 ≤ (mkD y m d).month ∧ (mkD y m d).month < 12 := by
  simp only [mkD]; omega

/-- The month index 12 * year + month, the linearization of (year, month). -/
def monthIdx (a : Dte) : Int := 12 * a.year + a.month

theorem mkD_monthIdx (y m d : Int) : monthIdx (mkD y m d) = 12 * y + m := by
  simp only [monthIdx, mkD]; omega

theorem mkD_day (y m d : Int) : (mkD y m d).day = d := rfl

theorem mkD_timeMs (y m d : Int) : (mkD y m d).timeMs = 0 := rfl

/-! ### Billing service: generateMonthPeriods
(src/lib/services/billingService.ts, lines 111-165) -/

/-- One generated billing period. -/
structure Period where
  startDate : Dte
  endDate : Dte
deriving Repr, DecidableEq

/-- The initial currentStart of generateMonthPeriods: the 15th of startDate's
month, or of the previous month when startDate.getDate() < 15.  The source's
subsequent check currentStart.getMonth() < 0 is kept although getMonth of a
constructed Date is never negative. -/
def firstStart (s : Dte) : Dte :=
  let c := if s.day < 15 then mkD s.year (s.month - 1) 15 else mkD s.year s.month 15
  if c.month < 0 then ⟨c.year - 1, 11, 15, 0⟩ else c

/-- The loop's currentEnd: new Date(y, m + 1, 14) followed by the source's
rollover check, which adds a further year whenever the constructed date's
month is smaller than currentStart's month.  Because the Date constructor has
already normalized month 12 into the next year, this check fires exactly for
December starts and then produces January 14 of the year after next — the
rollover slip the December test expectations contradict. -/
def monthEnd (cur : Dte) : Dte :=
  let e := mkD cur.year (cur.month + 1) 14
  if e.month < cur.month then { e with year := e.year + 1 } else e

/-- The loop's next currentStart: new Date(y, m + 1, 15), followed by the
source's month > 11 check, which never fires on a constructed Date. -/
def nextStart (cur : Dte) : Dte :=
  let n := mkD cur.year (cur.month + 1) 15
  if 11 < n.month then { n with year := n.year + 1, month := 0 } else n

/-- The while loop of generateMonthPeriods.  The fuel argument is
maxIterations - iterations; the returned Nat is the final value of the
source's iterations counter. -/
def genPeriodsAux (endD : Dte) : Nat → Dte → List Period × Nat
  | 0, _ => ([], 0)
  | fuel + 1, cur =>
    if Dte.le cur endD then
      (⟨cur, if Dte.lt endD (monthEnd cur) then endD else monthEnd cur⟩ ::
         (genPeriodsAux endD fuel (nextStart cur)).1,
       (genPeriodsAux endD fuel (nextStart cur)).2 + 1)
    else ([], 0)

/-- generateMonthPeriods(startDate, endDate): the list of generated periods. -/
def generateMonthPeriods (startD endD : Dte) : List Period :=
  (genPeriodsAux endD 1000 (firstStart startD)).1

/-- The iterations >= maxIterations condition after the loop, on which the
source merely emits a console.error log before returning the periods. -/
def maxIterationsReached (startD endD : Dte) : Bool :=
  decide (1000 ≤ (genPeriodsAux endD 1000 (firstStart startD)).2)

/-! ### Structural facts about the period generator -/

theorem dle_intro_year {a b : Dte} (h : a.year < b.year) : Dte.le a b := Or.inl h

theorem dle_intro_month {a b : Dte} (hy : a.year = b.year) (h : a.month < b.month) :
    Dte.le a b := Or.inr ⟨hy, Or.inl h⟩

theorem dle_intro_day {a b : Dte} (hy : a.year = b.year) (hm : a.month = b.month)
    (h : a.day < b.day) : Dte.le a b := Or.inr ⟨hy, Or.inr ⟨hm, Or.inl h⟩⟩

theorem dle_intro_ms {a b : Dte} (hy : a.year = b.year) (hm : a.month = b.month)
    (hd : a.day = b.day) (h : a.timeMs ≤ b.timeMs) : Dte.le a b :=
  Or.inr ⟨hy, Or.inr ⟨hm, Or.inr ⟨hd, h⟩⟩⟩

theorem dlt_intro_year {a b : Dte} (h : a.year < b.year) : Dte.lt a b := Or.inl h

theorem dlt_intro_month {a b : Dte} (hy : a.year = b.year) (h : a.month < b.month) :
    Dte.lt a b := Or.inr ⟨hy, Or.inl h⟩

theorem dlt_intro_day {a b : Dte} (hy : a.year = b.year) (hm : a.month = b.month)
    (h : a.day < b.day) : Dte.lt a b := Or.inr ⟨hy, Or.inr ⟨hm, Or.inl h⟩⟩

/-- The invariant of the loop variable currentStart: a normalized 15th-of-month
midnight date. -/
def isCycleStart (d : Dte) : Prop :=
  0 ≤ d.month ∧ d.month < 12 ∧ d.day = 15 ∧ d.timeMs = 0

theorem mkD_cycle (y m : Int) : isCycleStart (mkD y m 15) := by
  refine ⟨?_, ?_, rfl, rfl⟩ <;> simp only [mkD] <;> omega

theorem firstStart_cycle (s : Dte) : isCycleStart (firstStart s) := by
  unfold firstStart
  by_cases h : s.day < 15
  · simp only [h, if_true]
    split
    · exact ⟨by dsimp only; omega, by dsimp only; omega, rfl, rfl⟩
    · exact mkD_cycle _ _
  · simp only [h, if_false]
    split
    · exact ⟨by dsimp only; omega, by dsimp only; omega, rfl, rfl⟩
    · exact mkD_cycle _ _

theorem nextStart_eq (cur : Dte) : nextStart cur = mkD cur.year (cur.month + 1) 15 := by
  unfold nextStart
  have h := mkD_month_bounds cur.year (cur.month + 1) 15
  rw [if_neg]
  omega

theorem nextStart_cycle {cur : Dte} (_ : isCycleStart cur) : isCycleStart (nextStart cur) := by
  rw [nextStart_eq]; exact mkD_cycle _ _

theorem nextStart_monthIdx {cur : Dte} (_ : isCycleStart cur) :
    monthIdx (nextStart cur) = monthIdx cur + 1 := by
  rw [nextStart_eq, mkD_monthIdx]; unfold monthIdx; ring

theorem lt_nextStart {cur : Dte} (h : isCycleStart cur) : Dte.lt cur (nextStart cur) := by
  obtain ⟨h1, h2, h3, h4⟩ := h
  rw [nextStart_eq]
  by_cases hm : cur.month ≤ 10
  · refine dlt_intro_month ?_ ?_ <;> simp only [mkD] <;> omega
  · refine dlt_intro_year ?_
    simp only [mkD]
    omega

/-- The shape of monthEnd under the loop invariant: the ordinary 14th of the
next month for January..November starts, and the doubly-rolled-over
January 14 of the year after next for December starts. -/
theorem monthEnd_cases {cur : Dte} (h : isCycleStart cur) :
    (cur.month ≤ 10 ∧ monthEnd cur = ⟨cur.year, cur.month + 1, 14, 0⟩) ∨
    (cur.month = 11 ∧ monthEnd cur = ⟨cur.year + 2, 0, 14, 0⟩) := by
  obtain ⟨h1, h2, h3, h4⟩ := h
  by_cases hm : cur.month ≤ 10
  · left
    refine ⟨hm, ?_⟩
    have hmk : mkD cur.year (cur.month + 1) 14 = ⟨cur.year, cur.month + 1, 14, 0⟩ := by
      simp only [mkD, Dte.mk.injEq, and_true]
      omega
    unfold monthEnd
    rw [hmk]
    dsimp only
    rw [if_neg (by omega)]
  · right
    have hm11 : cur.month = 11 := by omega
    refine ⟨hm11, ?_⟩
    have hmk : mkD cur.year (cur.month + 1) 14 = ⟨cur.year + 1, 0, 14, 0⟩ := by
      simp only [mkD, Dte.mk.injEq, and_true]
      omega
    unfold monthEnd
    rw [hmk]
    dsimp only
    rw [if_pos (by omega)]
    simp only [Dte.mk.injEq, and_true]
    omega

theorem le_monthEnd {cur : Dte} (h : isCycleStart cur) : Dte.le cur (monthEnd cur) := by
  rcases monthEnd_cases h with ⟨hm, he⟩ | ⟨hm, he⟩ <;> obtain ⟨h1, h2, h3, h4⟩ := h <;> rw [he]
  · exact dle_intro_month (by dsimp only) (by dsimp only; omega)
  · exact dle_intro_year (by dsimp only; omega)

theorem monthEnd_lt_nextStart {cur : Dte} (h : isCycleStart cur) (hm : cur.month ≠ 11) :
    Dte.lt (monthEnd cur) (nextStart cur) := by
  rcases monthEnd_cases h with ⟨hm10, he⟩ | ⟨hc, _⟩
  · obtain ⟨h1, h2, h3, h4⟩ := h
    rw [he, nextStart_eq]
    refine dlt_intro_day ?_ ?_ ?_ <;> simp only [mkD] <;> omega
  · exact absurd hc hm

/-- A midnight date strictly before a cycle start is at or before the 14th
that precedes it, hence at or before monthEnd (whose December slip only makes
it later still). -/
theorem midnight_le_monthEnd {cur x : Dte} (h : isCycleStart cur) (hx : x.timeMs = 0)
    (hlt : Dte.lt x (nextStart cur)) : Dte.le x (monthEnd cur) := by
  obtain ⟨h1, h2, h3, h4⟩ := h
  rw [nextStart_eq] at hlt
  rcases monthEnd_cases ⟨h1, h2, h3, h4⟩ with ⟨hm, he⟩ | ⟨hm, he⟩ <;> rw [he] <;>
    simp only [Dte.lt, mkD] at hlt
  · have e1 : (cur.month + 1) / 12 = 0 := by omega
    have e2 : (cur.month + 1) % 12 = cur.month + 1 := by omega
    rw [e1, e2] at hlt
    rcases hlt with hy | ⟨hy, hmo⟩
    · exact dle_intro_year (by dsimp only; omega)
    · rcases hmo with hmo | ⟨hmo, hd⟩
      · exact dle_intro_month (by dsimp only; omega) (by dsimp only; omega)
      · rcases hd with hd | ⟨hd, hms⟩
        · rcases lt_trichotomy x.day 14 with h14 | h14 | h14
          · exact dle_intro_day (by dsimp only; omega) (by dsimp only; omega)
              (by dsimp only; omega)
          · exact dle_intro_ms (by dsimp only; omega) (by dsimp only; omega)
              (by dsimp only; omega) (by dsimp only; omega)
          · exact absurd hd (by omega)
        · exact absurd hms (by omega)
  · rcases hlt with hy | ⟨hy, hmo⟩
    · exact dle_intro_year (by dsimp only; omega)
    · exact dle_intro_year (by dsimp only; omega)

theorem cycle_le_monthIdx {cur e : Dte} (h : isCycleStart cur) (he1 : 0 ≤ e.month)
    (he2 : e.month < 12) (hle : Dte.le cur e) : monthIdx cur ≤ monthIdx e := by
  obtain ⟨h1, h2, _, _⟩ := h
  simp only [Dte.le] at hle
  unfold monthIdx
  omega

theorem monthIdx_lt_imp_le {cur e : Dte} (h : isCycleStart cur) (he1 : 0 ≤ e.month)
    (he2 : e.month < 12) (hidx : monthIdx cur < monthIdx e) : Dte.le cur e := by
  obtain ⟨h1, h2, _, _⟩ := h
  unfold monthIdx at hidx
  rcases lt_trichotomy cur.year e.year with hy | hy | hy
  · exact dle_intro_year hy
  · exact dle_intro_month hy (by omega)
  · exact absurd hidx (by omega)

/-! ### Behaviour of the generation loop -/

theorem genAux_succ_pos {endD cur : Dte} {fuel : Nat} (h : Dte.le cur endD) :
    genPeriodsAux endD (fuel + 1) cur =
      (⟨cur, if Dte.lt endD (monthEnd cur) then endD else monthEnd cur⟩ ::
         (genPeriodsAux endD fuel (nextStart cur)).1,
       (genPeriodsAux endD fuel (nextStart cur)).2 + 1) := by
  simp only [genPeriodsAux]
  rw [if_pos h]

theorem genAux_succ_neg {endD cur : Dte} {fuel : Nat} (h : ¬ Dte.le cur endD) :
    genPeriodsAux endD (fuel + 1) cur = ([], 0) := by
  simp only [genPeriodsAux]
  rw [if_neg h]

theorem genAux_length_le {endD : Dte} :
    ∀ (fuel : Nat) (cur : Dte), (genPeriodsAux endD fuel cur).1.length ≤ fuel
  | 0, _ => by simp [genPeriodsAux]
  | fuel + 1, cur => by
    by_cases h : Dte.le cur endD
    · rw [genAux_succ_pos h]
      simpa using genAux_length_le fuel (nextStart cur)
    · rw [genAux_succ_neg h]
      simp

theorem genAux_start_ge {endD : Dte} :
    ∀ (fuel : Nat) (cur : Dte), isCycleStart cur →
      ∀ p ∈ (genPeriodsAux endD fuel cur).1, Dte.le cur p.startDate ∧ isCycleStart p.startDate
  | 0, cur, _, p, hp => by simp [genPeriodsAux] at hp
  | fuel + 1, cur, hcy, p, hp => by
    by_cases h : Dte.le cur endD
    · rw [genAux_succ_pos h] at hp
      rcases List.mem_cons.mp hp with heq | hmem
      · subst heq
        exact ⟨dle_refl _, hcy⟩
      · have ih := genAux_start_ge fuel (nextStart cur) (nextStart_cycle hcy) p hmem
        exact ⟨dle_trans (dle_of_lt (lt_nextStart hcy)) ih.1, ih.2⟩
    · rw [genAux_succ_neg h] at hp
      simp at hp

theorem genAux_bounds {endD : Dte} :
    ∀ (fuel : Nat) (cur : Dte), isCycleStart cur →
      ∀ p ∈ (genPeriodsAux endD fuel cur).1,
        Dte.le p.startDate p.endDate ∧ Dte.le p.endDate endD
  | 0, cur, _, p, hp => by simp [genPeriodsAux] at hp
  | fuel + 1, cur, hcy, p, hp => by
    by_cases h : Dte.le cur endD
    · rw [genAux_succ_pos h] at hp
      rcases List.mem_cons.mp hp with heq | hmem
      · subst heq
        refine ⟨?_, ?_⟩ <;> dsimp only
        · split
          · exact h
          · exact le_monthEnd hcy
        · split
          · exact dle_refl _
          · rename_i hnl
            rcases dlt_or_ge endD (monthEnd cur) with hl | hg
            · exact absurd hl hnl
            · exact hg
      · exact genAux_bounds fuel (nextStart cur) (nextStart_cycle hcy) p hmem
    · rw [genAux_succ_neg h] at hp
      simp at hp

theorem genAux_cover {endD : Dte} (he1 : 0 ≤ endD.month) (he2 : endD.month < 12) :
    ∀ (fuel : Nat) (cur : Dte), isCycleStart cur →
      monthIdx endD - monthIdx cur < fuel →
      ∀ x : Dte, x.timeMs = 0 → Dte.le cur x → Dte.le x endD →
        ∃ p ∈ (genPeriodsAux endD fuel cur).1, Dte.le p.startDate x ∧ Dte.le x p.endDate
  | 0, cur, hcy, hfuel, x, hx, hcx, hxe => by
    exfalso
    have hce : Dte.le cur endD := dle_trans hcx hxe
    have := cycle_le_monthIdx hcy he1 he2 hce
    omega
  | fuel + 1, cur, hcy, hfuel, x, hx, hcx, hxe => by
    have hce : Dte.le cur endD := dle_trans hcx hxe
    rw [genAux_succ_pos hce]
    rcases dlt_or_ge x (nextStart cur) with hlt | hge
    · refine ⟨_, List.mem_cons_self _ _, hcx, ?_⟩
      dsimp only
      split
      · exact hxe
      · exact midnight_le_monthEnd hcy hx hlt
    · have hidx := nextStart_monthIdx hcy
      have hfuel2 : monthIdx endD - monthIdx (nextStart cur) < fuel := by omega
      obtain ⟨p, hp, h1, h2⟩ :=
        genAux_cover he1 he2 fuel (nextStart cur) (nextStart_cycle hcy) hfuel2 x hx hge hxe
      exact ⟨p, List.mem_cons_of_mem _ hp, h1, h2⟩

theorem genAux_pairwise {endD : Dte} :
    ∀ (fuel : Nat) (cur : Dte), isCycleStart cur →
      (∀ p ∈ (genPeriodsAux endD fuel cur).1, p.startDate.month ≠ 11) →
      List.Pairwise (fun p q => Dte.lt p.endDate q.startDate) (genPeriodsAux endD fuel cur).1
  | 0, cur, _, _ => by simp [genPeriodsAux]
  | fuel + 1, cur, hcy, hnodec => by
    by_cases h : Dte.le cur endD
    · rw [genAux_succ_pos h]
      rw [genAux_succ_pos h] at hnodec
      refine List.Pairwise.cons ?_ ?_
      · intro q hq
        have hstart : Dte.le (nextStart cur) q.startDate :=
          (genAux_start_ge fuel (nextStart cur) (nextStart_cycle hcy) q hq).1
        have hcur11 : cur.month ≠ 11 := hnodec _ (List.mem_cons_self _ _)
        have hend : Dte.le
            (if Dte.lt endD (monthEnd cur) then endD else monthEnd cur) (monthEnd cur) := by
          split
          · rename_i hc
            exact dle_of_lt hc
          · exact dle_refl _
        exact dlt_of_le_of_lt hend
          (dlt_of_lt_of_le (monthEnd_lt_nextStart hcy hcur11) hstart)
      · exact genAux_pairwise fuel (nextStart cur) (nextStart_cycle hcy)
          (fun p hp => hnodec p (List.mem_cons_of_mem _ hp))
    · rw [genAux_succ_neg h]
      simp

theorem genAux_length_eq {endD : Dte} (he1 : 0 ≤ endD.month) (he2 : endD.month < 12) :
    ∀ (fuel : Nat) (cur : Dte), isCycleStart cur →
      monthIdx cur + fuel ≤ monthIdx endD →
      (genPeriodsAux endD fuel cur).1.length = fuel
  | 0, _, _, _ => by simp [genPeriodsAux]
  | fuel + 1, cur, hcy, hfuel => by
    have hle : Dte.le cur endD := monthIdx_lt_imp_le hcy he1 he2 (by omega)
    rw [genAux_succ_pos hle]
    have hidx := nextStart_monthIdx hcy
    have := genAux_length_eq he1 he2 fuel (nextStart cur) (nextStart_cycle hcy) (by omega)
    simpa using this

theorem genAux_iter_eq_length {endD : Dte} :
    ∀ (fuel : Nat) (cur : Dte),
      (genPeriodsAux endD fuel cur).2 = (genPeriodsAux endD fuel cur).1.length
  | 0, _ => by simp [genPeriodsAux]
  | fuel + 1, cur => by
    by_cases h : Dte.le cur endD
    · rw [genAux_succ_pos h]
      simpa using genAux_iter_eq_length fuel (nextStart cur)
    · rw [genAux_succ_neg h]
      simp

theorem firstStart_eq (s : Dte) :
    firstStart s =
      if s.day < 15 then mkD s.year (s.month - 1) 15 else mkD s.year s.month 15 := by
  unfold firstStart
  by_cases h : s.day < 15 <;> simp only [h, if_true, if_false] <;>
    rw [if_neg (by simp only [mkD]; omega)]

theorem firstStart_le {s : Dte} (hm1 : 0 ≤ s.month) (hm2 : s.month < 12)
    (ht : s.timeMs = 0) : Dte.le (firstStart s) s := by
  rw [firstStart_eq]
  by_cases hd : s.day < 15
  · rw [if_pos hd]
    by_cases hm0 : s.month = 0
    · refine dlt_intro_year ?_ |> dle_of_lt
      simp only [mkD]
      omega
    · refine dle_of_lt (dlt_intro_month ?_ ?_) <;> simp only [mkD] <;> omega
  · rw [if_neg hd]
    have hmk : mkD s.year s.month 15 = ⟨s.year, s.month, 15, 0⟩ := by
      simp only [mkD, Dte.mk.injEq, and_true]
      omega
    rw [hmk]
    rcases lt_trichotomy 15 s.day with h15 | h15 | h15
    · exact dle_intro_day rfl rfl h15
    · exact dle_intro_ms rfl rfl h15 (by dsimp only; omega)
    · omega

/-- C10: generateMonthPeriods is total by construction: for all pairs of
component-wise modelled dates — including startDate > endDate, for which the
loop body never runs and the empty list is returned — it returns at most 1000
periods (the iteration cap), and every returned period satisfies
startDate <= endDate. -/
theorem c10_generateMonthPeriods_total (s e : Dte) :
    (generateMonthPeriods s e).length ≤ 1000 ∧
      ∀ p ∈ generateMonthPeriods s e, Dte.le p.startDate p.endDate := by
  unfold generateMonthPeriods
  exact ⟨genAux_length_le 1000 _,
    fun p hp => (genAux_bounds 1000 _ (firstStart_cycle s) p hp).1⟩

/-- C6: evaluation of generateMonthPeriods on the range 2024-01-01 to
2024-03-31 (the input of the repository's own unit test).  The code produces 4
periods whose second, third and fourth match the test, but the first period is
[2023-12-15, 2024-03-31] instead of the test's asserted [2023-12-15,
2024-01-14]: the December start constructs new Date(2023, 12, 14), which is
already January 14 of 2024, and the month-comparison rollover check then adds
a further year, producing 2025-01-14, which is clipped to the overall end
2024-03-31.  This contradicts the repository's test expectations. -/
theorem c6_generateMonthPeriods_on_test_range :
    generateMonthPeriods ⟨2024, 0, 1, 0⟩ ⟨2024, 2, 31, 0⟩ =
      [⟨⟨2023, 11, 15, 0⟩, ⟨2024, 2, 31, 0⟩⟩,
       ⟨⟨2024, 0, 15, 0⟩, ⟨2024, 1, 14, 0⟩⟩,
       ⟨⟨2024, 1, 15, 0⟩, ⟨2024, 2, 14, 0⟩⟩,
       ⟨⟨2024, 2, 15, 0⟩, ⟨2024, 2, 31, 0⟩⟩] ∧
    (generateMonthPeriods ⟨2024, 0, 1, 0⟩ ⟨2024, 2, 31, 0⟩).length = 4 := by
  decide

/-- C1 counterexample: on the concrete range 2024-01-01 to 2024-03-31 the
generated periods are not confined to [start, end] (the first period starts
2023-12-15, before start) and are not non-overlapping (the first period, whose
end was clipped to 2024-03-31 by the December rollover slip, overlaps the
second period). -/
theorem c1_period_coverage_counterexample :
    (∃ p ∈ generateMonthPeriods ⟨2024, 0, 1, 0⟩ ⟨2024, 2, 31, 0⟩,
        Dte.lt p.startDate ⟨2024, 0, 1, 0⟩) ∧
    (∃ p ∈ generateMonthPeriods ⟨2024, 0, 1, 0⟩ ⟨2024, 2, 31, 0⟩,
      ∃ q ∈ generateMonthPeriods ⟨2024, 0, 1, 0⟩ ⟨2024, 2, 31, 0⟩,
        p ≠ q ∧ Dte.le p.startDate q.endDate ∧ Dte.le q.startDate p.endDate) := by
  decide

/-- C1 amended: for start <= end (valid normalized midnight components, range
below the 1000-month iteration cap), generateMonthPeriods returns a non-empty
list of periods that (a) all lie inside [firstStart start, end] where
firstStart start <= start is the 15th of start's month (or of the previous
month when start.day < 15), (b) jointly cover every midnight date of
[firstStart start, end] with no gaps, and (c) are pairwise non-overlapping
provided no generated period starts in December (December starts overlap their
successors through the year-rollover slip). -/
theorem c1_period_coverage_amended (s e : Dte) (hsm1 : 0 ≤ s.month)
    (hsm2 : s.month < 12) (hst : s.timeMs = 0) (hem1 : 0 ≤ e.month)
    (hem2 : e.month < 12) (hse : Dte.le s e)
    (hspan : monthIdx e - monthIdx (firstStart s) < 1000) :
    Dte.le (firstStart s) s ∧
    generateMonthPeriods s e ≠ [] ∧
    (∀ p ∈ generateMonthPeriods s e,
        Dte.le (firstStart s) p.startDate ∧ Dte.le p.startDate p.endDate ∧
          Dte.le p.endDate e) ∧
    (∀ x : Dte, x.timeMs = 0 → Dte.le (firstStart s) x → Dte.le x e →
        ∃ p ∈ generateMonthPeriods s e, Dte.le p.startDate x ∧ Dte.le x p.endDate) ∧
    ((∀ p ∈ generateMonthPeriods s e, p.startDate.month ≠ 11) →
        List.Pairwise (fun p q => Dte.lt p.endDate q.startDate)
          (generateMonthPeriods s e)) := by
  have hfs := firstStart_cycle s
  have hfle : Dte.le (firstStart s) s := firstStart_le hsm1 hsm2 hst
  have hfe : Dte.le (firstStart s) e := dle_trans hfle hse
  refine ⟨hfle, ?_, ?_, ?_, ?_⟩
  · unfold generateMonthPeriods
    have h1000 : (1000 : Nat) = 999 + 1 := rfl
    rw [h1000, genAux_succ_pos hfe]
    simp
  · intro p hp
    exact ⟨(genAux_start_ge 1000 _ hfs p hp).1,
      (genAux_bounds 1000 _ hfs p hp).1, (genAux_bounds 1000 _ hfs p hp).2⟩
  · intro x hx h1 h2
    exact genAux_cover hem1 hem2 1000 _ hfs (by omega) x hx h1 h2
  · intro hnodec
    exact genAux_pairwise 1000 _ hfs hnodec

/-- Witness for the amended C1 on the concrete range 2024-02-01 to 2024-04-30,
whose generated periods start on 2024-01-15, 2024-02-15 and 2024-03-15 (no
December starts, so the non-overlap conjunct is effective). -/
theorem c1_period_coverage_witness :
    Dte.le (firstStart ⟨2024, 1, 1, 0⟩) ⟨2024, 1, 1, 0⟩ ∧
    generateMonthPeriods ⟨2024, 1, 1, 0⟩ ⟨2024, 3, 30, 0⟩ ≠ [] ∧
    (∀ p ∈ generateMonthPeriods ⟨2024, 1, 1, 0⟩ ⟨2024, 3, 30, 0⟩,
        Dte.le (firstStart ⟨2024, 1, 1, 0⟩) p.startDate ∧
          Dte.le p.startDate p.endDate ∧ Dte.le p.endDate ⟨2024, 3, 30, 0⟩) ∧
    (∀ x : Dte, x.timeMs = 0 → Dte.le (firstStart ⟨2024, 1, 1, 0⟩) x →
        Dte.le x ⟨2024, 3, 30, 0⟩ →
        ∃ p ∈ generateMonthPeriods ⟨2024, 1, 1, 0⟩ ⟨2024, 3, 30, 0⟩,
          Dte.le p.startDate x ∧ Dte.le x p.endDate) ∧
    ((∀ p ∈ generateMonthPeriods ⟨2024, 1, 1, 0⟩ ⟨2024, 3, 30, 0⟩,
          p.startDate.month ≠ 11) →
        List.Pairwise (fun p q => Dte.lt p.endDate q.startDate)
          (generateMonthPeriods ⟨2024, 1, 1, 0⟩ ⟨2024, 3, 30, 0⟩)) :=
  c1_period_coverage_amended ⟨2024, 1, 1, 0⟩ ⟨2024, 3, 30, 0⟩ (by decide) (by decide)
    (by decide) (by decide) (by decide) (by decide) (by decide)

/-- C8 counterexample: on a range wide enough to exhaust the 1000-iteration
cap (1900-01-01 to 2200-01-01), the function returns a silently truncated
result of exactly 1000 periods — no exception is raised; the only reaction is
the console.error log modelled by maxIterationsReached. -/
theorem c8_iteration_cap_counterexample :
    (generateMonthPeriods ⟨1900, 0, 1, 0⟩ ⟨2200, 0, 1, 0⟩).length = 1000 ∧
    maxIterationsReached ⟨1900, 0, 1, 0⟩ ⟨2200, 0, 1, 0⟩ = true := by
  have hfs : firstStart ⟨1900, 0, 1, 0⟩ = ⟨1899, 11, 15, 0⟩ := by decide
  have hlen : (genPeriodsAux ⟨2200, 0, 1, 0⟩ 1000 (firstStart ⟨1900, 0, 1, 0⟩)).1.length
      = 1000 := by
    refine genAux_length_eq (by decide) (by decide) 1000 _ (firstStart_cycle _) ?_
    rw [hfs]
    decide
  refine ⟨hlen, ?_⟩
  unfold maxIterationsReached
  rw [genAux_iter_eq_length]
  unfold generateMonthPeriods at hlen
  rw [hlen]
  decide

/-- C8 amended: when the requested range spans at least 1000 generation
cycles, the loop stops at the iteration cap, the iterations >= maxIterations
check fires — on which the source only logs console.error — and the function
returns the truncated 1000-period list normally instead of raising any
operator-facing failure. -/
theorem c8_iteration_cap_amended (s e : Dte) (hem1 : 0 ≤ e.month)
    (hem2 : e.month < 12) (hspan : monthIdx (firstStart s) + 1000 ≤ monthIdx e) :
    (generateMonthPeriods s e).length = 1000 ∧ maxIterationsReached s e = true := by
  have hlen := genAux_length_eq hem1 hem2 1000 (firstStart s) (firstStart_cycle s) hspan
  refine ⟨hlen, ?_⟩
  unfold maxIterationsReached
  rw [genAux_iter_eq_length, hlen]
  decide

/-- Witness for the amended C8 on the concrete range 1800-03-20 to 2100-01-01,
which spans far more than 1000 months. -/
theorem c8_iteration_cap_witness :
    (generateMonthPeriods ⟨1800, 2, 20, 0⟩ ⟨2100, 0, 1, 0⟩).length = 1000 ∧
    maxIterationsReached ⟨1800, 2, 20, 0⟩ ⟨2100, 0, 1, 0⟩ = true :=
  c8_iteration_cap_amended ⟨1800, 2, 20, 0⟩ ⟨2100, 0, 1, 0⟩ (by decide) (by decide)
    (by decide)

/-! ### Transactions

The Transaction record of src/lib/types.ts, restricted to the fields the
parsing and billing code reads.  The date is stored as its epoch-milliseconds
value (a Date is observationally its timestamp), and createdAt = updatedAt is
the single "now" timestamp taken at creation. -/

structure Txn where
  id : Str
  timeMs : Int
  sender : Str
  item : Str
  amount : ℚ
  originalMessage : Str
  createdAtMs : Int
deriving Repr, DecidableEq

/-! ### Billing service: combineItems
(src/lib/services/billingService.ts, lines 170-204) -/

/-- The grouping key: transaction.item.toLowerCase().trim(). -/
def itemKeyB (t : Txn) : Str := trimS (strLower t.item)

/-- A BillItem of src/lib/types.ts. -/
structure BillItem where
  item : Str
  quantity : Nat
  unitPrice : ℚ
  totalPrice : ℚ
deriving Repr, DecidableEq

/-- One step of the itemMap update: on an existing key increment quantity and
add the amount in place (the stored unitPrice, always totalPrice / quantity,
is kept implicitly); on a new key append an entry with quantity 1.  The
association list carries the Map's insertion order. -/
def upsertItem : List (Str × Nat × ℚ) → Str → ℚ → List (Str × Nat × ℚ)
  | [], k, amt => [(k, 1, amt)]
  | e :: rest, k, amt =>
    if e.1 = k then (e.1, e.2.1 + 1, e.2.2 + amt) :: rest
    else e :: upsertItem rest k amt

/-- The transactions.forEach loop building the itemMap. -/
def buildItemMap : List Txn → List (Str × Nat × ℚ) → List (Str × Nat × ℚ)
  | [], m => m
  | t :: ts, m => buildItemMap ts (upsertItem m (itemKeyB t) t.amount)

/-- combineItems: build the per-key quantity/total map, convert each entry to
a BillItem with two-decimal rounding, and sort by totalPrice descending.  The
JS engine's Array.prototype.sort is stable, and a stable sort under this
comparator is extensionally insertion sort under the relation
b.totalPrice <= a.totalPrice. -/
def combineItems (ts : List Txn) : List BillItem :=
  List.insertionSort (fun a b => b.totalPrice ≤ a.totalPrice)
    ((buildItemMap ts []).map (fun e => ⟨e.1, e.2.1, round2 (e.2.2 / (e.2.1 : ℚ)), round2 e.2.2⟩))

/-- Occurrences of a key among the transactions. -/
def cntKey (ts : List Txn) (k : Str) : Nat :=
  (ts.filter (fun t => itemKeyB t = k)).length

/-- Summed amount of a key among the transactions. -/
def amtKey (ts : List Txn) (k : Str) : ℚ :=
  ((ts.filter (fun t => itemKeyB t = k)).map Txn.amount).sum

/-- Association-list lookup mirroring Map.get. -/
def lookupKV (k : Str) : List (Str × Nat × ℚ) → Option (Nat × ℚ)
  | [] => none
  | e :: rest => if e.1 = k then some e.2 else lookupKV k rest

theorem cnt_cons (t : Txn) (ts : List Txn) (k : Str) :
    cntKey (t :: ts) k = (if itemKeyB t = k then 1 else 0) + cntKey ts k := by
  unfold cntKey
  rw [List.filter_cons]
  split <;> simp_all <;> omega

theorem amt_cons (t : Txn) (ts : List Txn) (k : Str) :
    amtKey (t :: ts) k = (if itemKeyB t = k then t.amount else 0) + amtKey ts k := by
  unfold amtKey
  rw [List.filter_cons]
  split <;> simp_all

theorem lookup_upsert_same (m : List (Str × Nat × ℚ)) (k : Str) (amt : ℚ) :
    lookupKV k (upsertItem m k amt) =
      match lookupKV k m with
      | none => some (1, amt)
      | some (q, tot) => some (q + 1, tot + amt) := by
  induction m with
  | nil => simp [upsertItem, lookupKV]
  | cons e rest ih =>
    by_cases he : e.1 = k
    · simp [upsertItem, lookupKV, he]
    · simp [upsertItem, lookupKV, he, ih]

theorem lookup_upsert_other (m : List (Str × Nat × ℚ)) (k ku : Str) (amt : ℚ)
    (h : k ≠ ku) : lookupKV k (upsertItem m ku amt) = lookupKV k m := by
  induction m with
  | nil =>
    simp only [upsertItem, lookupKV]
    rw [if_neg (fun hh => h hh.symm)]
  | cons e rest ih =>
    by_cases he : e.1 = ku
    · simp only [upsertItem, if_pos he, lookupKV]
      have hek : ¬ e.1 = k := fun hh => h (hh ▸ he ▸ rfl)
      rw [if_neg hek, if_neg hek]
    · simp only [upsertItem, if_neg he, lookupKV]
      split <;> simp_all

/-- Combination of an existing map entry with the contribution of a
transaction suffix: the abstract effect of buildItemMap on one key. -/
def addEntry (o : Option (Nat × ℚ)) (c : Nat) (a : ℚ) : Option (Nat × ℚ) :=
  match o with
  | some e => some (e.1 + c, e.2 + a)
  | none => if c = 0 then none else some (c, a)

theorem buildMap_lookup :
    ∀ (ts : List Txn) (m : List (Str × Nat × ℚ)) (k : Str),
      lookupKV k (buildItemMap ts m) = addEntry (lookupKV k m) (cntKey ts k) (amtKey ts k)
  | [], m, k => by
    have hc : cntKey [] k = 0 := rfl
    have ha : amtKey [] k = 0 := rfl
    rw [hc, ha]
    simp only [buildItemMap, addEntry]
    cases lookupKV k m with
    | none => simp
    | some e => simp
  | t :: ts, m, k => by
    simp only [buildItemMap]
    rw [buildMap_lookup ts _ k, cnt_cons, amt_cons]
    by_cases hk : itemKeyB t = k
    · rw [if_pos hk, if_pos hk, hk, lookup_upsert_same]
      cases hm : lookupKV k m with
      | none =>
        simp only [addEntry]
        rw [if_neg (by omega)]
      | some e =>
        simp only [addEntry, Option.some.injEq, Prod.mk.injEq]
        constructor
        · omega
        · ring
    · rw [lookup_upsert_other _ _ _ _ (fun hh => hk hh.symm), if_neg hk, if_neg hk]
      simp only [Nat.zero_add, zero_add]

/-- Keys of the association list. -/
def keysOf (m : List (Str × Nat × ℚ)) : List Str := m.map Prod.fst

theorem keysOf_nil : keysOf [] = [] := rfl

theorem keysOf_cons (e : Str × Nat × ℚ) (m : List (Str × Nat × ℚ)) :
    keysOf (e :: m) = e.1 :: keysOf m := rfl

theorem upsert_keys (k : Str) (amt : ℚ) :
    ∀ (m : List (Str × Nat × ℚ)),
      keysOf (upsertItem m k amt) = if k ∈ keysOf m then keysOf m else keysOf m ++ [k]
  | [] => by simp [upsertItem, keysOf]
  | e :: rest => by
    by_cases he : e.1 = k
    · simp only [upsertItem, if_pos he, keysOf_cons]
      rw [if_pos (List.mem_cons.mpr (Or.inl he.symm))]
    · simp only [upsertItem, if_neg he, keysOf_cons, upsert_keys k amt rest]
      by_cases hmem : k ∈ keysOf rest
      · rw [if_pos hmem, if_pos (List.mem_cons.mpr (Or.inr hmem))]
      · rw [if_neg hmem,
          if_neg (by
            intro hh
            rcases List.mem_cons.mp hh with h1 | h1
            · exact he h1.symm
            · exact hmem h1)]
        simp

theorem upsert_keys_nodup (m : List (Str × Nat × ℚ)) (k : Str) (amt : ℚ)
    (h : (keysOf m).Nodup) : (keysOf (upsertItem m k amt)).Nodup := by
  rw [upsert_keys]
  split
  · exact h
  · rename_i hnm
    simp [List.nodup_append, h, hnm]

theorem buildMap_keys_nodup :
    ∀ (ts : List Txn) (m : List (Str × Nat × ℚ)), (keysOf m).Nodup →
      (keysOf (buildItemMap ts m)).Nodup
  | [], _, h => h
  | t :: ts, m, h =>
    buildMap_keys_nodup ts _ (upsert_keys_nodup m _ _ h)

theorem lookup_of_mem_nodup :
    ∀ (m : List (Str × Nat × ℚ)), (keysOf m).Nodup → ∀ e ∈ m, lookupKV e.1 m = some e.2
  | [], _, e, he => by simp at he
  | f :: rest, h, e, he => by
    rcases List.mem_cons.mp he with heq | hmem
    · subst heq
      simp [lookupKV]
    · rw [keysOf_cons, List.nodup_cons] at h
      have hne : ¬ f.1 = e.1 := by
        intro hh
        exact h.1 (hh ▸ List.mem_map_of_mem Prod.fst hmem)
      simp only [lookupKV, if_neg hne]
      exact lookup_of_mem_nodup rest h.2 e hmem

theorem lookup_some_mem :
    ∀ (m : List (Str × Nat × ℚ)) (k : Str) (v : Nat × ℚ),
      lookupKV k m = some v → (k, v) ∈ m
  | [], k, v, h => by simp [lookupKV] at h
  | f :: rest, k, v, h => by
    simp only [lookupKV] at h
    split at h
    · rename_i hf
      simp only [Option.some.injEq] at h
      subst h
      subst hf
      exact List.mem_cons_self _ _
    · exact List.mem_cons_of_mem _ (lookup_some_mem rest k v h)

/-! ### Exact-decimal amounts and rounding -/

/-- A rational that is an integer number of hundredths — the shape of every
currency amount (JS numbers written with at most two decimals). -/
def is2dp (q : ℚ) : Prop := ∃ n : ℤ, q * 100 = (n : ℚ)

theorem jsRound_intCast (n : ℤ) : jsRound (n : ℚ) = n := by
  unfold jsRound
  rw [Int.floor_int_add]
  norm_num

theorem round2_of_is2dp {q : ℚ} (h : is2dp q) : round2 q = q := by
  obtain ⟨n, hn⟩ := h
  unfold round2
  rw [hn, jsRound_intCast, ← hn]
  field_simp

theorem is2dp_add {a b : ℚ} (ha : is2dp a) (hb : is2dp b) : is2dp (a + b) := by
  obtain ⟨n, hn⟩ := ha
  obtain ⟨m, hm⟩ := hb
  exact ⟨n + m, by push_cast; rw [← hn, ← hm]; ring⟩

theorem is2dp_sum : ∀ (l : List ℚ), (∀ x ∈ l, is2dp x) → is2dp l.sum
  | [], _ => ⟨0, by norm_num⟩
  | x :: l, h => by
    rw [List.sum_cons]
    exact is2dp_add (h x (List.mem_cons_self _ _))
      (is2dp_sum l (fun y hy => h y (List.mem_cons_of_mem _ hy)))

theorem amtKey_is2dp {ts : List Txn} (h : ∀ t ∈ ts, is2dp t.amount) (k : Str) :
    is2dp (amtKey ts k) := by
  unfold amtKey
  refine is2dp_sum _ (fun x hx => ?_)
  obtain ⟨t, ht, rfl⟩ := List.mem_map.mp hx
  exact h t (List.mem_filter.mp ht).1

instance : IsTrans BillItem (fun a b => b.totalPrice ≤ a.totalPrice) :=
  ⟨fun _ _ _ h1 h2 => le_trans h2 h1⟩

instance : IsTotal BillItem (fun a b => b.totalPrice ≤ a.totalPrice) :=
  ⟨fun a b => le_total b.totalPrice a.totalPrice⟩

/-- The transactions of the spec's billing-aggregation scenario: milk 100
three times and bread 50 once. -/
def billExampleTxns : List Txn :=
  [⟨"t1".toList, 0, "monir".toList, "milk".toList, 100, [], 0⟩,
   ⟨"t2".toList, 0, "monir".toList, "milk".toList, 100, [], 0⟩,
   ⟨"t3".toList, 0, "monir".toList, "milk".toList, 100, [], 0⟩,
   ⟨"t4".toList, 0, "monir".toList, "bread".toList, 50, [], 0⟩]

/-- C5: combineItems groups transactions by lowercased and trimmed item name;
for two-decimal amounts each output entry carries the occurrence count as
quantity, the exact amount sum as totalPrice, and totalPrice / quantity
rounded to two decimals as unitPrice; every transaction's key appears; the
output is sorted by totalPrice descending.  On the spec's concrete scenario —
milk 100 three times and bread 50 once — the result is milk (quantity 3,
total 300, unit 100) before bread (quantity 1, total 50, unit 50). -/
theorem c5_combineItems_correct :
    (∀ ts : List Txn, (∀ t ∈ ts, is2dp t.amount) →
      List.Sorted (fun a b : BillItem => b.totalPrice ≤ a.totalPrice) (combineItems ts) ∧
      (∀ b ∈ combineItems ts,
        0 < b.quantity ∧ b.quantity = cntKey ts b.item ∧
        b.totalPrice = amtKey ts b.item ∧
        b.unitPrice = round2 (amtKey ts b.item / (cntKey ts b.item : ℚ))) ∧
      (∀ t ∈ ts, ∃ b ∈ combineItems ts, b.item = itemKeyB t)) ∧
    combineItems billExampleTxns =
      [⟨"milk".toList, 3, 100, 300⟩, ⟨"bread".toList, 1, 50, 50⟩] := by
  constructor
  · intro ts hts
    have hnodup : (keysOf (buildItemMap ts [])).Nodup :=
      buildMap_keys_nodup ts [] (by simp [keysOf])
    refine ⟨List.sorted_insertionSort _ _, ?_, ?_⟩
    · intro b hb
      rw [combineItems, List.mem_insertionSort] at hb
      obtain ⟨e, he, rfl⟩ := List.mem_map.mp hb
      dsimp only
      have hlk : lookupKV e.1 (buildItemMap ts []) = some e.2 :=
        lookup_of_mem_nodup _ hnodup e he
      rw [buildMap_lookup ts [] e.1] at hlk
      have hnone : lookupKV e.1 ([] : List (Str × Nat × ℚ)) = none := rfl
      rw [hnone] at hlk
      unfold addEntry at hlk
      by_cases hc : cntKey ts e.1 = 0
      · rw [if_pos hc] at hlk
        exact absurd hlk (by simp)
      · rw [if_neg hc] at hlk
        simp only [Option.some.injEq] at hlk
        have he1 : e.2.1 = cntKey ts e.1 := by rw [← hlk]
        have he2 : e.2.2 = amtKey ts e.1 := by rw [← hlk]
        refine ⟨by omega, he1, ?_, ?_⟩
        · rw [he2, round2_of_is2dp (amtKey_is2dp hts e.1)]
        · rw [he2, he1]
    · intro t ht
      have hcnt : 0 < cntKey ts (itemKeyB t) := by
        unfold cntKey
        have hmf : t ∈ ts.filter (fun x => itemKeyB x = itemKeyB t) :=
          List.mem_filter.mpr ⟨ht, by simp⟩
        exact List.length_pos.mpr (fun hnil => by simp [hnil] at hmf)
      have hlk : lookupKV (itemKeyB t) (buildItemMap ts []) =
          some (cntKey ts (itemKeyB t), amtKey ts (itemKeyB t)) := by
        rw [buildMap_lookup ts [] (itemKeyB t)]
        have hnone : lookupKV (itemKeyB t) ([] : List (Str × Nat × ℚ)) = none := rfl
        rw [hnone]
        unfold addEntry
        rw [if_neg (by omega)]
      have hmem := lookup_some_mem _ _ _ hlk
      refine ⟨⟨itemKeyB t, cntKey ts (itemKeyB t),
        round2 (amtKey ts (itemKeyB t) / (cntKey ts (itemKeyB t) : ℚ)),
        round2 (amtKey ts (itemKeyB t))⟩, ?_, rfl⟩
      rw [combineItems, List.mem_insertionSort]
      exact List.mem_map.mpr ⟨_, hmem, rfl⟩
  · have hmap : buildItemMap billExampleTxns [] =
        [("milk".toList, 3, (300 : ℚ)), ("bread".toList, 1, (50 : ℚ))] := by
      have e1 : (100 : ℚ) + 100 + 100 = 300 := by norm_num
      simp +decide [billExampleTxns, buildItemMap, upsertItem, itemKeyB, trimS, strLower,
        lowerC, isWs, e1]
    have hr1 : round2 ((300 : ℚ) / 3) = 100 := by norm_num [round2, jsRound]
    have hr1b : round2 ((300 : ℚ) / ((3 : Nat) : ℚ)) = 100 := by norm_num [round2, jsRound]
    have hr2 : round2 ((300 : ℚ)) = 300 := by norm_num [round2, jsRound]
    have hr3 : round2 ((50 : ℚ) / 1) = 50 := by norm_num [round2, jsRound]
    have hr3b : round2 ((50 : ℚ) / ((1 : Nat) : ℚ)) = 50 := by norm_num [round2, jsRound]
    have hr4 : round2 ((50 : ℚ)) = 50 := by norm_num [round2, jsRound]
    rw [combineItems, hmap]
    simp +decide [List.insertionSort, List.orderedInsert, hr1, hr1b, hr2, hr3, hr3b, hr4]

/-- Witness for C5: the universal part applied to the concrete milk/bread
transaction list, with the two-decimal hypothesis discharged by explicit
integer witnesses. -/
theorem c5_combineItems_witness :
    List.Sorted (fun a b : BillItem => b.totalPrice ≤ a.totalPrice)
      (combineItems billExampleTxns) ∧
    (∀ b ∈ combineItems billExampleTxns,
      0 < b.quantity ∧ b.quantity = cntKey billExampleTxns b.item ∧
      b.totalPrice = amtKey billExampleTxns b.item ∧
      b.unitPrice = round2 (amtKey billExampleTxns b.item /
        (cntKey billExampleTxns b.item : ℚ))) ∧
    (∀ t ∈ billExampleTxns, ∃ b ∈ combineItems billExampleTxns, b.item = itemKeyB t) :=
  c5_combineItems_correct.1 billExampleTxns (by
    intro t ht
    simp only [billExampleTxns, List.mem_cons, List.not_mem_nil, or_false] at ht
    rcases ht with h | h | h | h <;> subst h
    · exact ⟨10000, by norm_num⟩
    · exact ⟨10000, by norm_num⟩
    · exact ⟨10000, by norm_num⟩
    · exact ⟨5000, by norm_num⟩)

/-! ### Parser deduplication: removeDuplicates
(src/lib/services/whatsappParser.ts, lines 667-680) -/

/-- The dedup key: sender, item, amount, and the absolute 5-minute window
index Math.floor(date.getTime() / 300000).  The source interpolates these
fields into a hyphen-separated template string; the tuple is the same key for
every comparison the pipeline performs (string collisions would additionally
require a hyphen-aligned coincidence across fields). -/
def dedupKey (t : Txn) : Str × Str × ℚ × Int :=
  (t.sender, t.item, t.amount, t.timeMs / 300000)

/-- The filter with its seen-set: a transaction is kept iff its key was not
seen before, and kept transactions add their key. -/
def removeDupAux : List Txn → List (Str × Str × ℚ × Int) → List Txn
  | [], _ => []
  | t :: ts, seen =>
    if dedupKey t ∈ seen then removeDupAux ts seen
    else t :: removeDupAux ts (dedupKey t :: seen)

/-- removeDuplicates: keep the first transaction of every
(sender, item, amount, 5-minute-window) class. -/
def removeDuplicates (ts : List Txn) : List Txn := removeDupAux ts []

/-- C2 counterexample: two transactions with identical sender, item and
amount whose timestamps differ by only 2 seconds (299000 ms and 301000 ms)
fall into different absolute 5-minute windows, so the deduplicator keeps
both — refuting the claim that a timestamp difference below 5 minutes always
collapses them. -/
theorem c2_dedup_counterexample :
    (Txn.mk ("i1".toList) 299000 ("monir".toList) ("milk".toList) 100 [] 0).sender =
      (Txn.mk ("i2".toList) 301000 ("monir".toList) ("milk".toList) 100 [] 0).sender ∧
    (Txn.mk ("i1".toList) 299000 ("monir".toList) ("milk".toList) 100 [] 0).item =
      (Txn.mk ("i2".toList) 301000 ("monir".toList) ("milk".toList) 100 [] 0).item ∧
    (Txn.mk ("i1".toList) 299000 ("monir".toList) ("milk".toList) 100 [] 0).amount =
      (Txn.mk ("i2".toList) 301000 ("monir".toList) ("milk".toList) 100 [] 0).amount ∧
    301000 - 299000 < 5 * 60 * 1000 ∧
    removeDuplicates
      [Txn.mk ("i1".toList) 299000 ("monir".toList) ("milk".toList) 100 [] 0,
       Txn.mk ("i2".toList) 301000 ("monir".toList) ("milk".toList) 100 [] 0] =
      [Txn.mk ("i1".toList) 299000 ("monir".toList) ("milk".toList) 100 [] 0,
       Txn.mk ("i2".toList) 301000 ("monir".toList) ("milk".toList) 100 [] 0] := by
  decide

/-- C2 amended: for two transactions with equal sender, item and amount, the
deduplicator collapses them iff they fall into the same absolute 5-minute
window (equal floor(time / 300000)).  In particular a pair within one window
(such as the spec's one-minute and three-minute scenarios when they do not
straddle a window boundary) collapses to the first transaction — one
duplicate skipped — and a pair at least 5 minutes apart (including the 2-day
scenario, regardless of message text, which the code never compares) is kept
in full. -/
theorem c2_dedup_amended (t1 t2 : Txn) (hs : t1.sender = t2.sender)
    (hi : t1.item = t2.item) (ha : t1.amount = t2.amount) :
    (t1.timeMs / 300000 = t2.timeMs / 300000 →
      removeDuplicates [t1, t2] = [t1] ∧ (removeDuplicates [t1, t2]).length = 1) ∧
    (300000 ≤ t2.timeMs - t1.timeMs ∨ 300000 ≤ t1.timeMs - t2.timeMs →
      removeDuplicates [t1, t2] = [t1, t2]) := by
  constructor
  · intro hw
    have hkey : dedupKey t2 = dedupKey t1 := by
      simp [dedupKey, Prod.ext_iff, hs, hi, ha, hw]
    simp [removeDuplicates, removeDupAux, hkey]
  · intro hw
    have hkey : ¬ dedupKey t2 = dedupKey t1 := by
      simp only [dedupKey, Prod.mk.injEq, not_and]
      intro _ _ _
      omega
    simp [removeDuplicates, removeDupAux, hkey]

/-- Witness for the amended C2: two equal-key transactions 3 minutes apart in
the same window (times 0 ms and 180000 ms). -/
theorem c2_dedup_witness :
    ((Txn.mk ("i1".toList) 0 ("monir".toList) ("milk".toList) 100 [] 0).timeMs / 300000 =
        (Txn.mk ("i2".toList) 180000 ("monir".toList) ("milk".toList) 100 [] 0).timeMs
          / 300000 →
      removeDuplicates
          [Txn.mk ("i1".toList) 0 ("monir".toList) ("milk".toList) 100 [] 0,
           Txn.mk ("i2".toList) 180000 ("monir".toList) ("milk".toList) 100 [] 0] =
        [Txn.mk ("i1".toList) 0 ("monir".toList) ("milk".toList) 100 [] 0] ∧
      (removeDuplicates
          [Txn.mk ("i1".toList) 0 ("monir".toList) ("milk".toList) 100 [] 0,
           Txn.mk ("i2".toList) 180000 ("monir".toList) ("milk".toList) 100 [] 0]).length
        = 1) ∧
    (300000 ≤
          (Txn.mk ("i2".toList) 180000 ("monir".toList) ("milk".toList) 100 [] 0).timeMs -
            (Txn.mk ("i1".toList) 0 ("monir".toList) ("milk".toList) 100 [] 0).timeMs ∨
        300000 ≤
          (Txn.mk ("i1".toList) 0 ("monir".toList) ("milk".toList) 100 [] 0).timeMs -
            (Txn.mk ("i2".toList) 180000 ("monir".toList) ("milk".toList) 100 [] 0).timeMs →
      removeDuplicates
          [Txn.mk ("i1".toList) 0 ("monir".toList) ("milk".toList) 100 [] 0,
           Txn.mk ("i2".toList) 180000 ("monir".toList) ("milk".toList) 100 [] 0] =
        [Txn.mk ("i1".toList) 0 ("monir".toList) ("milk".toList) 100 [] 0,
         Txn.mk ("i2".toList) 180000 ("monir".toList) ("milk".toList) 100 [] 0]) :=
  c2_dedup_amended _ _ rfl rfl rfl

/-! ### Parser string utilities -/

/-- Split at every character satisfying p (String.prototype.split with a
single-character separator; basis for the whitespace-run split below). -/
def splitOnC (p : Char → Bool) : Str → List Str
  | [] => [[]]
  | c :: rest =>
    if p c then [] :: splitOnC p rest
    else
      match splitOnC p rest with
      | [] => [[c]]
      | r :: rs => (c :: r) :: rs

/-- Helper of dropInnerEmpty: drop empty pieces except in last position. -/
def dropInnerEmptyTail : List Str → List Str
  | [] => []
  | [x] => [x]
  | x :: xs => if x.isEmpty then dropInnerEmptyTail xs else x :: dropInnerEmptyTail xs

/-- Collapse the empty pieces produced by adjacent separators, keeping a
leading and a trailing empty piece: together with splitOnC this is exactly
JS String.prototype.split on a whitespace-run regex. -/
def dropInnerEmpty : List Str → List Str
  | [] => []
  | [x] => [x]
  | x :: xs => x :: dropInnerEmptyTail xs

/-- JS text.split on one-or-more whitespace characters. -/
def splitWsJS (s : Str) : List Str := dropInnerEmpty (splitOnC isWs s)

/-- convertBengaliNumerals: replace each Bengali digit by its Western
counterpart, character by character. -/
def convertBengaliNumerals (s : Str) : Str :=
  s.map (fun c =>
    if 0x09E6 ≤ c.toNat && c.toNat ≤ 0x09EF then Char.ofNat (c.toNat - 0x09E6 + 48) else c)

theorem dropWhile_len_le {α : Type} (p : α → Bool) :
    ∀ l : List α, (l.dropWhile p).length ≤ l.length
  | [] => le_refl _
  | c :: rest => by
    simp only [List.dropWhile]
    split
    · exact le_trans (dropWhile_len_le p rest) (Nat.le_succ _)
    · simp

/-- Does the pattern occur as a prefix of the string? -/
def startsW : Str → Str → Bool
  | [], _ => true
  | _ :: _, [] => false
  | p :: ps, c :: cs => p = c && startsW ps cs

/-- Strip a maximal run of trailing digits (the replace of a trailing
digits-run by the empty string). -/
def dropTrailingDigits (s : Str) : Str :=
  (s.reverse.dropWhile isDigitC).reverse

/-- Replace every whitespace run by a single space. -/
def collapseWs : Str → Str
  | [] => []
  | c :: rest =>
    if isWs c then ' ' :: collapseWs (rest.dropWhile isWs)
    else c :: collapseWs rest
termination_by s => s.length
decreasing_by
  · simp only [List.length_cons]
    exact Nat.lt_succ_of_le (dropWhile_len_le _ _)
  · simp

/-- First occurrences of a list's elements, in order (the element sequence of
a JS Set or of Map keys built by repeated insertion). -/
def dedupFirst {α : Type} [DecidableEq α] : List α → List α
  | [] => []
  | x :: xs => x :: dedupFirst (xs.filter (fun y => y ≠ x))
termination_by l => l.length
decreasing_by
  simp only [List.length_cons]
  exact Nat.lt_succ_of_le (List.length_filter_le _ _)

/-- normalizeSenderName (src/lib/validation/schemas.ts): trim, collapse
whitespace runs, keep only word characters, whitespace and Bengali script,
truncate to 100 characters. -/
def normalizeSenderName (s : Str) : Str :=
  (((collapseWs (trimS s))).filter (fun c => isWordC c || isWs c || isBengali c)).take 100

/-! ### Item vocabulary
(standardizeTerminology, src/lib/services/whatsappParser.ts lines 722-830)

The source's ITEM_MAP object literal repeats several keys (tel, chal, alo,
dim, piaz, rosun, saban, rc, koyel aliases) with identical values; a JS object
keeps one property per key at its first position, so the table below lists
each key once, in first-occurrence order. -/

def ITEM_MAP : List (Str × Str) :=
  [("dudh".toList, "milk".toList), ("dhud".toList, "milk".toList),
   ("tedars".toList, "tissues".toList), ("dim".toList, "eggs".toList),
   ("moris".toList, "chillies".toList), ("tel".toList, "oil".toList),
   ("alo".toList, "potato".toList), ("chal".toList, "rice".toList),
   ("ata".toList, "flour".toList), ("piaz".toList, "onion".toList),
   ("rosun".toList, "garlic".toList), ("ada".toList, "ginger".toList),
   ("holud".toList, "turmeric".toList), ("jira".toList, "cumin".toList),
   ("saban".toList, "soap".toList), ("vimbar".toList, "vim".toList),
   ("rin".toList, "rin".toList), ("rc".toList, "rc cola".toList),
   ("coff".toList, "coffee".toList), ("koyel".toList, "koyel".toList),
   ("koyel60".toList, "koyel".toList), ("koyle".toList, "koyel".toList),
   ("koyl".toList, "koyel".toList), ("teel".toList, "oil".toList),
   ("teil".toList, "oil".toList), ("chaal".toList, "rice".toList),
   ("chall".toList, "rice".toList), ("aloo".toList, "potato".toList),
   ("aluu".toList, "potato".toList), ("deem".toList, "eggs".toList),
   ("dimm".toList, "eggs".toList), ("piyaz".toList, "onion".toList),
   ("peaz".toList, "onion".toList), ("roshun".toList, "garlic".toList),
   ("rosoon".toList, "garlic".toList), ("sabun".toList, "soap".toList),
   ("sabon".toList, "soap".toList), ("arr".toList, "rc cola".toList),
   ("arsi".toList, "rc cola".toList), ("majoni".toList, "mayonnaise".toList),
   ("mosla".toList, "spice".toList), ("chini".toList, "sugar".toList),
   ("ghee".toList, "ghee".toList), ("dal".toList, "lentils".toList),
   ("beson".toList, "gram flour".toList), ("semai".toList, "vermicelli".toList),
   ("muri".toList, "puffed rice".toList), ("chanachur".toList, "chanachur".toList),
   ("biscuits".toList, "biscuits".toList), ("paratha".toList, "paratha".toList),
   ("chapati".toList, "chapati".toList), ("noodles".toList, "noodles".toList),
   ("pasta".toList, "pasta".toList), ("sauce".toList, "sauce".toList),
   ("kismis".toList, "raisins".toList), ("badam".toList, "almonds".toList),
   ("tissue".toList, "tissue".toList), ("paste".toList, "toothpaste".toList),
   ("shampoo".toList, "shampoo".toList), ("brush".toList, "brush".toList),
   ("razor".toList, "razor".toList), ("freedom".toList, "freedom pad".toList),
   ("whisper".toList, "whisper pad".toList), ("harpic".toList, "harpic".toList),
   ("lizol".toList, "lizol".toList), ("savlon".toList, "savlon".toList),
   ("ponds".toList, "ponds".toList), ("lux".toList, "lux soap".toList),
   ("dew".toList, "dew".toList), ("sprite".toList, "sprite".toList),
   ("coke".toList, "coke".toList), ("pepsi".toList, "pepsi".toList)]

/-- JS String.prototype.includes: does the needle occur as a contiguous
substring of the haystack? -/
def isInfixB : Str → Str → Bool
  | needle, [] => needle.isEmpty
  | needle, c :: t => startsW needle (c :: t) || isInfixB needle t

/-- JS object property lookup on the deduplicated table. -/
def lookupStr (k : Str) (m : List (Str × Str)) : Option Str :=
  (m.find? (fun e => e.1 = k)).map Prod.snd

/-- standardizeTerminology: exact lowercase lookup; retry with trailing
digits stripped; then the first table entry whose key and the item contain
one another with length difference at most 2; otherwise the item unchanged. -/
def standardizeTerminology (item : Str) : Str :=
  let lowerItem := strLower item
  match lookupStr lowerItem ITEM_MAP with
  | some v => v
  | none =>
    match lookupStr (dropTrailingDigits lowerItem) ITEM_MAP with
    | some v => v
    | none =>
      match ITEM_MAP.find? (fun e =>
          (isInfixB lowerItem e.1 || isInfixB e.1 lowerItem) &&
          ((e.1.length : Int) - (lowerItem.length : Int)).natAbs ≤ 2) with
      | some e => e.2
      | none => item

/-- The fixed rejection list of isValidItem (system words, running totals,
months in English and Bengali, other boilerplate). -/
def invalidItems : List Str :=
  [("নং").toList, ("pm").toList, ("am").toList, ("monir").toList, ("munia").toList,
   ("mustari").toList, ("null").toList, ("total").toList,
   ("https").toList, ("http").toList, ("www").toList, ("com").toList, ("org").toList,
   ("net").toList, ("co").toList, ("bd").toList,
   ("deleted").toList, ("message").toList, ("media").toList, ("omitted").toList,
   ("encrypted").toList,
   ("কেনা").toList, ("বাকি").toList, ("পূর্বের").toList, ("বর্তমান").toList,
   ("লেনদেন").toList, ("রেকর্ড").toList, ("পরিশোধ").toList,
   ("january").toList, ("february").toList, ("march").toList, ("april").toList,
   ("may").toList, ("june").toList, ("july").toList, ("august").toList,
   ("september").toList, ("october").toList, ("november").toList, ("december").toList,
   ("jan").toList, ("feb").toList, ("mar").toList, ("apr").toList, ("jun").toList,
   ("jul").toList, ("aug").toList, ("sep").toList, ("oct").toList, ("nov").toList,
   ("dec").toList,
   ("জানুয়ারি").toList, ("জানুয়ারী").toList, ("ফেব্রুয়ারি").toList,
   ("ফেব্রুয়ারী").toList, ("মার্চ").toList, ("এপ্রিল").toList,
   ("মে").toList, ("জুন").toList, ("জুলাই").toList, ("আগস্ট").toList,
   ("সেপ্টেম্বর").toList, ("অক্টোবর").toList, ("নভেম্বর").toList, ("ডিসেম্বর").toList,
   ("জুমা").toList, ("জুম্মা").toList, ("জুমার").toList, ("জুম্মার").toList,
   ("জমা").toList,
   ("মাস").toList, ("বছর").toList, ("দিন").toList, ("সপ্তাহ").toList, ("তারিখ").toList,
   ("যেভাবে").toList, ("পেমেন্ট").toList, ("করতে").toList, ("পারবেন").toList,
   ("কাস্টমার").toList, ("মোবাইল").toList,
   ("দোকানের").toList, ("সুপার").toList, ("কোডে").toList, ("আপনার").toList,
   ("বিকাশ").toList, ("রকেট").toList, ("ব্যাংক").toList,
   ("অ্যাপ").toList, ("থেকে").toList, ("স্ক্যান").toList, ("করে").toList,
   ("বিস্তারিত").toList, ("লিংকে").toList, ("দেখুন").toList,
   ("মৌরি").toList, ("দিও").toList, ("lagbe").toList, ("dio").toList,
   ("takar").toList, ("তাকার").toList, ("টাকার").toList, ("joma").toList]

/-- isValidItem: reject listed words, purely numeric tokens, and tokens
longer than 20 characters. -/
def isValidItem (item : Str) : Bool :=
  let lowerItem := strLower item
  if lowerItem ∈ invalidItems then false
  else if allDigits item || 20 < item.length then false
  else true

/-! ### Item-amount pair extraction
(findSimpleItemAmountPairs, src/lib/services/whatsappParser.ts lines 923-987)

The rejection branches of both strategies interpolate an identifier named
item into their log template; no such binding is in scope there, so at
runtime evaluating the template throws a ReferenceError (the surrounding
per-line try/catch of the caller records it).  The strategies are therefore
embedded in Except, throwing at the first rejected candidate. -/

/-- One extracted item-amount pair. -/
structure Pair where
  item : Str
  amount : ℚ
deriving Repr, DecidableEq

/-- The ReferenceError thrown by the rejection branches. -/
def itemNotDefined : Str := "item is not defined".toList

/-- Does the string match the full-number pattern digits+ (. digits+)? -/
def isFullNumber (s : Str) : Bool :=
  let d := s.takeWhile isDigitC
  let r := s.dropWhile isDigitC
  !d.isEmpty &&
    (r.isEmpty ||
      match r with
      | '.' :: f => !f.isEmpty && f.all isDigitC
      | _ => false)

/-- Strategy 1 of findSimpleItemAmountPairs: for each adjacent word pair
where the first word starts with a letter and the second is a full number,
accept the standardized item with the parsed amount when the raw item is
valid and the amount lies in (0, 1000]; otherwise throw the log template's
ReferenceError. -/
def strat1 : List Str → Except Str (List Pair)
  | [] => Except.ok []
  | [_] => Except.ok []
  | w1 :: w2 :: rest =>
    if (match w1 with | c :: _ => isLetterC c | [] => false) && isFullNumber w2 then
      let rawItem := trimS w1
      let standardizedItem := standardizeTerminology rawItem
      let amount := parseDecimal w2
      if isValidItem rawItem ∧ 0 < amount ∧ amount ≤ 1000 then
        match strat1 (w2 :: rest) with
        | Except.error e => Except.error e
        | Except.ok ps => Except.ok (⟨standardizedItem, amount⟩ :: ps)
      else Except.error itemNotDefined
    else strat1 (w2 :: rest)

/-- The global matches of the letters-digits adjacency pattern: maximal
letter runs immediately followed by at least one digit, scanned left to
right without overlap. -/
def scanAttachedF : Nat → Str → List (Str × Str)
  | 0, _ => []
  | _ + 1, [] => []
  | fuel + 1, c :: rest =>
    if isLetterC c then
      if ((rest.dropWhile isLetterC).takeWhile isDigitC).isEmpty then
        scanAttachedF fuel (rest.dropWhile isLetterC)
      else
        (c :: rest.takeWhile isLetterC, (rest.dropWhile isLetterC).takeWhile isDigitC) ::
          scanAttachedF fuel ((rest.dropWhile isLetterC).dropWhile isDigitC)
    else scanAttachedF fuel rest

/-- Run the scan with the only fuel it can ever use: every step of the scan
consumes at least one character. -/
def scanAttached (s : Str) : List (Str × Str) := scanAttachedF s.length s

/-- Strategy 2 of findSimpleItemAmountPairs: an attached letters-digits token
is first checked against the vocabulary as a whole (a typo-corrected brand
name is skipped rather than read as item plus price); otherwise it is
accepted under the same validity and (0, 1000] checks, again throwing the
rejection branch's ReferenceError on failure. -/
def strat2 : List (Str × Str) → Except Str (List Pair)
  | [] => Except.ok []
  | (letters, digits) :: rest =>
    let rawItem := trimS letters
    let attachedNumber : ℚ := (natOfDigits digits : ℚ)
    if standardizeTerminology (rawItem ++ digits) ≠ rawItem ++ digits then
      strat2 rest
    else if isValidItem rawItem ∧ 0 < attachedNumber ∧ attachedNumber ≤ 1000 then
      match strat2 rest with
      | Except.error e => Except.error e
      | Except.ok ps => Except.ok (⟨standardizeTerminology rawItem, attachedNumber⟩ :: ps)
    else Except.error itemNotDefined

/-- findSimpleItemAmountPairs: convert Bengali numerals, then apply the two
strategies in order, accumulating their pairs; a rejection in either
strategy aborts the whole extraction with the ReferenceError. -/
def findSimpleItemAmountPairs (text : Str) : Except Str (List Pair) :=
  let convertedText := convertBengaliNumerals text
  match strat1 (splitWsJS convertedText) with
  | Except.error e => Except.error e
  | Except.ok p1 =>
    match strat2 (scanAttached convertedText) with
    | Except.error e => Except.error e
    | Except.ok p2 => Except.ok (p1 ++ p2)

/-! ### Structured-total (kena) and description extraction -/

/-- The Bengali keyword kena (bought). -/
def kenaStr : Str := "কেনা".toList

/-- The Bengali label biboron (description). -/
def biboronStr : Str := "বিবরণ".toList

/-- Leftmost match of the kena-total pattern: the keyword followed by
whitespace and a digit run, whose digits are returned. -/
def kenaScan : Str → Option Str
  | [] => none
  | c :: rest =>
    if startsW kenaStr (c :: rest) then
      let r1 := (c :: rest).drop 4
      if (r1.takeWhile isWs).isEmpty then kenaScan rest
      else
        let digits := (r1.dropWhile isWs).takeWhile isDigitC
        if digits.isEmpty then kenaScan rest else some digits
    else kenaScan rest

/-- A character the regex dot matches (anything but a line terminator). -/
def dotOk (c : Char) : Bool := c ≠ '\n' && c ≠ '\r'

/-- The lookahead of the description pattern: optional whitespace followed by
the name moriom (case-insensitively), or the end of the string. -/
def moriomAhead (r : Str) : Bool :=
  startsW ("moriom".toList) (strLower (r.dropWhile isWs)) || r.isEmpty

/-- The lazy one-or-more-characters capture: the shortest nonempty prefix of
line-content characters after which the lookahead holds. -/
def lazyDesc : Str → Str → Option Str
  | [], _ => none
  | c :: rest, acc =>
    if !dotOk c then none
    else if moriomAhead rest then some (c :: acc).reverse
    else lazyDesc rest (c :: acc)

/-- Backtracking over the greedy whitespace-plus of the description pattern:
the engine first consumes the whole whitespace run, and on failure of the
lazy capture gives back trailing run characters one at a time (the capture
then starts inside the run).  The first argument is the part of the run the
quantifier may still give back (all but its first character). -/
def tryWs : Str → Str → Option Str
  | [], r => lazyDesc r []
  | c :: t, r =>
    match tryWs t r with
    | some d => some d
    | none => lazyDesc (c :: (t ++ r)) []

/-- Leftmost match of the description pattern biboron, whitespace, then a
lazy capture up to the moriom-or-end lookahead, with whitespace-quantifier
backtracking. -/
def biboronScan : Str → Option Str
  | [] => none
  | c :: rest =>
    if startsW biboronStr (c :: rest) then
      let r1 := (c :: rest).drop 5
      if (r1.takeWhile isWs).isEmpty then biboronScan rest
      else
        match tryWs (r1.takeWhile isWs).tail (r1.dropWhile isWs) with
        | some d => some d
        | none => biboronScan rest
    else biboronScan rest

/-! ### Transaction synthesis
(validateAndExtractTransactions, src/lib/services/whatsappParser.ts
lines 197-281) -/

/-- The transaction-creation loop over accepted pairs: each accepted pair
consumes one generated id; ids are modelled as an arbitrary supply gen
indexed by a running counter. -/
def mkTxs (sender : Str) (dateMs : Int) (text : Str) (now : Int) (gen : Nat → Str) :
    List Pair → Nat → List Txn × Nat
  | [], k => ([], k)
  | p :: ps, k =>
    if 0 < p.amount ∧ isValidItem p.item then
      ((⟨gen k, dateMs, sender, p.item, p.amount, text, now⟩ : Txn) ::
          (mkTxs sender dateMs text now gen ps (k + 1)).1,
        (mkTxs sender dateMs text now gen ps (k + 1)).2)
    else mkTxs sender dateMs text now gen ps k

/-- validateAndExtractTransactions: on a kena match, one transaction carrying
the whole total with the biboron description (or the word purchase) as item;
otherwise the transactions of the extracted pairs.  The suspicious-entry
bookkeeping of the source (items without amounts, no-amount diagnostics) is
omitted: the caller discards it, so it never reaches any observable result.
A ReferenceError from the extraction propagates. -/
def validateAndExtractTransactions (text sender : Str) (dateMs : Int)
    (gen : Nat → Str) (k : Nat) (now : Int) : Except Str (List Txn × Nat) :=
  let convertedText := convertBengaliNumerals text
  match kenaScan convertedText with
  | some digits =>
    Except.ok
      ([⟨gen k, dateMs, sender,
          (match biboronScan convertedText with
           | some d => trimS d
           | none => "purchase".toList),
          (natOfDigits digits : ℚ), text, now⟩],
        k + 1)
  | none =>
    match findSimpleItemAmountPairs convertedText with
    | Except.error e => Except.error e
    | Except.ok pairs => Except.ok (mkTxs sender dateMs text now gen pairs k)

/-! ### Message-header matching
(config.messagePattern, src/lib/services/whatsappParser.ts line 17)

The anchored pattern date, comma, time, optional am/pm, dash, sender, colon,
message is matched sequentially; each quantifier is resolved to its
backtracking-free equivalent (a bounded digit run must end exactly where the
following literal begins, a whitespace run and the class that follows it are
disjoint), except where backtracking is observable: a sender or message that
would otherwise be empty captures the last character of the preceding
whitespace run. -/

/-- The five captures of the message-header pattern. -/
structure Header where
  dateStr : Str
  timeStr : Str
  ampm : Option Str
  sender : Str
  message : Str
deriving Repr, DecidableEq

/-- Match d{1,2} / d{1,2} / d{2,4} followed by a comma; returns the date
capture and the rest after the comma. -/
def matchDatePart (s : Str) : Option (Str × Str) :=
  let d1 := s.takeWhile isDigitC
  match s.dropWhile isDigitC with
  | '/' :: r2 =>
    let d2 := r2.takeWhile isDigitC
    match r2.dropWhile isDigitC with
    | '/' :: r4 =>
      let d3 := r4.takeWhile isDigitC
      match r4.dropWhile isDigitC with
      | ',' :: r6 =>
        if 1 ≤ d1.length ∧ d1.length ≤ 2 ∧ 1 ≤ d2.length ∧ d2.length ≤ 2 ∧
            2 ≤ d3.length ∧ d3.length ≤ 4 then
          some (d1 ++ '/' :: d2 ++ '/' :: d3, r6)
        else none
      | _ => none
    | _ => none
  | _ => none

/-- Match whitespace then d{1,2} : d{2}; the minute part takes exactly two
digits, a third digit is left for the next component (where it fails the
pattern). -/
def matchTimePart (s : Str) : Option (Str × Str) :=
  let s1 := s.dropWhile isWs
  let hh := s1.takeWhile isDigitC
  match s1.dropWhile isDigitC with
  | ':' :: r2 =>
    if 1 ≤ hh.length ∧ hh.length ≤ 2 ∧ 2 ≤ (r2.takeWhile isDigitC).length then
      some (hh ++ ':' :: r2.take 2, r2.drop 2)
    else none
  | _ => none

/-- Match whitespace then the optional case-insensitive am/pm group; the
capture keeps the input's own characters.  The group commits: once taken, the
pattern cannot fall back to the empty alternative (the position would then
start with a letter, failing the dash that must follow). -/
def matchAmPm (s : Str) : Option Str × Str :=
  let s1 := s.dropWhile isWs
  if strLower (s1.take 2) = "am".toList ∨ strLower (s1.take 2) = "pm".toList then
    (some (s1.take 2), s1.drop 2)
  else (none, s1)

/-- Match whitespace then the literal dash. -/
def matchDash (s : Str) : Option Str :=
  match s.dropWhile isWs with
  | '-' :: r => some r
  | _ => none

/-- Match whitespace then the non-colon sender capture and its closing colon.
The greedy whitespace run is given back only when the capture would otherwise
be empty, in which case the capture is the run's last character. -/
def senderPart (s : Str) : Option (Str × Str) :=
  let full := s.takeWhile (fun c => decide (c ≠ ':'))
  match s.dropWhile (fun c => decide (c ≠ ':')) with
  | ':' :: r =>
    if (full.dropWhile isWs).isEmpty then
      if full.isEmpty then none else some (full.drop (full.length - 1), r)
    else some (full.dropWhile isWs, r)
  | _ => none

/-- Match whitespace then the nonempty message capture extending to the end
of the string; every captured character must be matchable by the dot.  As for
the sender, an all-whitespace remainder captures its last character. -/
def messagePart (s : Str) : Option Str :=
  if s.isEmpty then none
  else
    let m := s.dropWhile isWs
    if m.isEmpty then
      if (s.drop (s.length - 1)).all dotOk then some (s.drop (s.length - 1)) else none
    else if m.all dotOk then some m else none

/-- line.match(config.messagePattern), returning the five captures. -/
def matchHeader (s : Str) : Option Header :=
  match matchDatePart s with
  | none => none
  | some (dateStr, r1) =>
    match matchTimePart r1 with
    | none => none
    | some (timeStr, r2) =>
      match matchAmPm r2 with
      | (ampm, r3) =>
        match matchDash r3 with
        | none => none
        | some r4 =>
          match senderPart r4 with
          | none => none
          | some (sender, r5) =>
            match messagePart r5 with
            | none => none
            | some msg => some ⟨dateStr, timeStr, ampm, sender, msg⟩

/-! ### Date parsing -/

/-- JS Number() restricted to the strings this pipeline feeds it: the empty
string (which JS converts to 0) and digit strings; anything else is NaN,
which poisons the subsequent Date construction. -/
def jsNat (s : Str) : Option Nat :=
  if s.isEmpty then some 0
  else if s.all isDigitC then some (natOfDigits s) else none

/-- JS parseInt on the strings this pipeline feeds it: the numeric value of
the leading digit run, NaN (none) if there is none. -/
def parseIntJS (s : Str) : Option Nat :=
  let d := s.takeWhile isDigitC
  if d.isEmpty then none else some (natOfDigits d)

/-- parseDate (src/lib/services/whatsappParser.ts lines 527-556): split the
date capture on slashes and the time capture on the colon (surplus components
are ignored by the destructuring, missing ones poison the date), widen a
two-digit year to 2000+, apply the 12-hour adjustment, and build the Date.
A date outside the ECMAScript time range (8.64e15 ms either side of the
epoch) is invalid and yields null. -/
def parseDate (dateStr timeStr : Str) (ampm : Option Str) : Option Int :=
  match splitOnC (fun c => decide (c = '/')) dateStr,
      splitOnC (fun c => decide (c = ':')) timeStr with
  | d :: m :: y :: _, hh :: mi :: _ =>
    match jsNat d, jsNat m, jsNat y, jsNat hh, jsNat mi with
    | some dn, some mn, some yn, some hn, some minu =>
      let fullYear : Int := if yn < 100 then 2000 + (yn : Int) else (yn : Int)
      let adjH : Int :=
        match ampm with
        | some a =>
          if strLower a = "pm".toList ∧ hn ≠ 12 then (hn : Int) + 12
          else if strLower a = "am".toList ∧ hn = 12 then 0
          else (hn : Int)
        | none => (hn : Int)
      let ms := epochMsOfCivil fullYear ((mn : Int) - 1) (dn : Int) adjH (minu : Int)
      if ms.natAbs ≤ 8640000000000000 then some ms else none
    | _, _, _, _, _ => none
  | _, _ => none

/-- The date-only line pattern d{1,2}, whitespace, a Bengali-script run,
whitespace, d{4} (anchored at the start only); returns the three captures. -/
def dateOnlyMatch (s : Str) : Option (Str × Str × Str) :=
  let d1 := s.takeWhile isDigitC
  if 1 ≤ d1.length ∧ d1.length ≤ 2 ∧
      ¬((s.dropWhile isDigitC).takeWhile isWs).isEmpty then
    let r2 := (s.dropWhile isDigitC).dropWhile isWs
    let mB := r2.takeWhile isBengali
    if ¬mB.isEmpty ∧ ¬((r2.dropWhile isBengali).takeWhile isWs).isEmpty then
      let yd := ((r2.dropWhile isBengali).dropWhile isWs).takeWhile isDigitC
      if 4 ≤ yd.length then some (d1, mB, yd.take 4) else none
    else none
  else none

/-- The Bengali month table of parseDateFromComponents. -/
def bengaliMonthIdx (m : Str) : Option Nat :=
  if m = "জানুয়ারি".toList then some 0
  else if m = "ফেব্রুয়ারি".toList then some 1
  else if m = "মার্চ".toList then some 2
  else if m = "এপ্রিল".toList then some 3
  else if m = "মে".toList then some 4
  else if m = "জুন".toList then some 5
  else if m = "জুলাই".toList then some 6
  else if m = "আগস্ট".toList then some 7
  else if m = "সেপ্টেম্বর".toList then some 8
  else if m = "অক্টোবর".toList then some 9
  else if m = "নভেম্বর".toList then some 10
  else if m = "ডিসেম্বর".toList then some 11
  else none

/-- parseDateFromComponents: convert Bengali numerals in day and year, map
the month name, and build a midnight Date.  The captures feeding this are
digit runs, so the parseInt calls cannot produce NaN here. -/
def parseDateFromComponents (day mon year : Str) : Option Int :=
  match bengaliMonthIdx mon with
  | some mi =>
    match parseIntJS (convertBengaliNumerals day),
        parseIntJS (convertBengaliNumerals year) with
    | some dn, some yn => some (epochMsOfCivil (yn : Int) (mi : Int) (dn : Int) 0 0)
    | _, _ => none
  | none => none

/-! ### The enhanced parsing loop
(enhancedContextBasedParsing, src/lib/services/whatsappParser.ts
lines 82-195) -/

/-- A ParseError record: 1-based line number, exception message, line text. -/
structure PErr where
  line : Nat
  message : Str
  originalText : Str
deriving Repr, DecidableEq

/-- The line loop: tracks the current date and sender context and the running
id-supply index; a header line updates the context and, for a monir header
with a valid date, extracts from its message part; a date-only line updates
the date; any other line is a continuation extracted under the carried
context (an absent date context falls back to the wall clock now).  A thrown
ReferenceError is caught per line and recorded as a ParseError against the
1-based line index.  (The id-supply index is not advanced for ids consumed
before a throw; the supply is arbitrary, so no claim observes the index.) -/
def enhancedGo (gen : Nat → Str) (now : Int) :
    List Str → Nat → Option Int → Str → Nat → List Txn × List PErr × Nat
  | [], _, _, _, k => ([], [], k)
  | l :: rest, i, curDate, curSender, k =>
    if (trimS l).isEmpty then enhancedGo gen now rest (i + 1) curDate curSender k
    else
      match matchHeader (trimS l) with
      | some h =>
        match parseDate h.dateStr h.timeStr h.ampm with
        | some d =>
          if strLower (normalizeSenderName h.sender) = "monir".toList then
            match validateAndExtractTransactions h.message
                (normalizeSenderName h.sender) d gen k now with
            | Except.ok tk =>
              (tk.1 ++ (enhancedGo gen now rest (i + 1) (some d)
                  (normalizeSenderName h.sender) tk.2).1,
                (enhancedGo gen now rest (i + 1) (some d)
                  (normalizeSenderName h.sender) tk.2).2.1,
                (enhancedGo gen now rest (i + 1) (some d)
                  (normalizeSenderName h.sender) tk.2).2.2)
            | Except.error msg =>
              ((enhancedGo gen now rest (i + 1) (some d)
                  (normalizeSenderName h.sender) k).1,
                ⟨i + 1, msg, trimS l⟩ :: (enhancedGo gen now rest (i + 1) (some d)
                  (normalizeSenderName h.sender) k).2.1,
                (enhancedGo gen now rest (i + 1) (some d)
                  (normalizeSenderName h.sender) k).2.2)
          else enhancedGo gen now rest (i + 1) (some d) (normalizeSenderName h.sender) k
        | none => enhancedGo gen now rest (i + 1) none (normalizeSenderName h.sender) k
      | none =>
        match dateOnlyMatch (trimS l) with
        | some dmy =>
          enhancedGo gen now rest (i + 1)
            ((parseDateFromComponents dmy.1 dmy.2.1 dmy.2.2).or curDate) curSender k
        | none =>
          if strLower (if curSender.isEmpty then "unknown".toList else curSender) =
              "monir".toList then
            match validateAndExtractTransactions (trimS l)
                (if curSender.isEmpty then "unknown".toList else curSender)
                (curDate.getD now) gen k now with
            | Except.ok tk =>
              (tk.1 ++ (enhancedGo gen now rest (i + 1) curDate curSender tk.2).1,
                (enhancedGo gen now rest (i + 1) curDate curSender tk.2).2.1,
                (enhancedGo gen now rest (i + 1) curDate curSender tk.2).2.2)
            | Except.error msg =>
              ((enhancedGo gen now rest (i + 1) curDate curSender k).1,
                ⟨i + 1, msg, trimS l⟩ ::
                  (enhancedGo gen now rest (i + 1) curDate curSender k).2.1,
                (enhancedGo gen now rest (i + 1) curDate curSender k).2.2)
          else enhancedGo gen now rest (i + 1) curDate curSender k

/-! ### Context-based categorizing
(contextBasedCategorizing, src/lib/services/whatsappParser.ts
lines 560-663) -/

/-- getNormalizedItemKey: lowercase, strip digits, keep word, whitespace and
Bengali characters, strip whitespace, trim. -/
def getNormalizedItemKey (item : Str) : Str :=
  trimS ((((strLower item).filter (fun c => !isDigitC c)).filter
    (fun c => isWordC c || isWs c || isBengali c)).filter (fun c => !isWs c))

/-- The similarity test of calculateSimilarity: the distinct-character
Jaccard ratio exceeds 0.2.  With set sizes i and u this float comparison is
exactly u < 5i (0.5-free fractions this close to 1/5 would need denominators
beyond 2^53). -/
def simOK (a b : Str) : Bool :=
  (dedupFirst (a ++ b)).length <
    5 * ((dedupFirst a).filter (fun c => decide (c ∈ b))).length

/-- Phase 1 of chooseBestItemName: fold the first-occurrence-ordered
name-frequency entries, keeping the entry with the larger count, or equal
count and strictly shorter name; the start value pairs the first name with
count 0, so the first entry always replaces it. -/
def bestPhase1 (names : List Str) : Str × Nat :=
  ((dedupFirst names).map
      (fun n => (n, (names.filter (fun x => decide (x = n))).length))).foldl
    (fun acc e =>
      if acc.2 < e.2 ∨ (e.2 = acc.2 ∧ e.1.length < acc.1.length) then e else acc)
    (names.headD [], 0)

/-- Does the name start with a digit (regex caret-digit test)? -/
def startsDigit (s : Str) : Bool :=
  match s with
  | c :: _ => isDigitC c
  | [] => false

/-- chooseBestItemName: the phase-1 winner, overridden by the first
clean (not digit-leading) name whose frequency among clean names is at least
half the phase-1 maximum (count >= maxCount * 0.5, exact in floats). -/
def chooseBestItemName (names : List Str) : Str :=
  match ((dedupFirst (names.filter (fun n => !startsDigit n))).map
      (fun n => (n, ((names.filter (fun n => !startsDigit n)).filter
        (fun x => decide (x = n))).length))).find?
      (fun e => decide ((bestPhase1 names).2 ≤ 2 * e.2)) with
  | some e => e.1
  | none => (bestPhase1 names).1

/-- The merge loop of step 2: for each unprocessed key in insertion order,
collect the still-unprocessed distinct keys whose similarity passes, rename
every transaction of the merged groups to the best item name, and mark all
the merged keys processed. -/
def mergeLoop (gOf : Str → List Txn) (allKeys : List Str) :
    List Str → List Str → List Txn
  | [], _ => []
  | k1 :: rest, processed =>
    if k1 ∈ processed then mergeLoop gOf allKeys rest processed
    else
      (gOf k1 ++ ((allKeys.filter (fun k2 =>
            decide (k2 ≠ k1) && decide (k2 ∉ processed) && simOK k1 k2)).map gOf).flatten).map
          (fun t => { t with item := chooseBestItemName ((gOf k1 ++
            ((allKeys.filter (fun k2 =>
              decide (k2 ≠ k1) && decide (k2 ∉ processed) && simOK k1 k2)).map gOf).flatten).map
                Txn.item) }) ++
        mergeLoop gOf allKeys rest
          (processed ++ allKeys.filter (fun k2 =>
            decide (k2 ≠ k1) && decide (k2 ∉ processed) && simOK k1 k2) ++ [k1])

/-- contextBasedCategorizing: group by normalized item key (insertion order),
then run the similarity merge over the key list. -/
def contextBasedCategorizing (ts : List Txn) : List Txn :=
  mergeLoop (fun k => ts.filter (fun t => decide (getNormalizedItemKey t.item = k)))
    (dedupFirst (ts.map (fun t => getNormalizedItemKey t.item)))
    (dedupFirst (ts.map (fun t => getNormalizedItemKey t.item))) []

/-! ### parseFile (src/lib/services/whatsappParser.ts lines 28-80) -/

/-- The single-pass global replace of a biboron-keyword-plus-whitespace
occurrence by the empty string (step 1 of parseFile); scanning resumes after
each replaced occurrence, so occurrences recreated by a replacement survive. -/
def removeBiboron : Str → Str
  | [] => []
  | c :: rest =>
    if startsW biboronStr (c :: rest) ∧
        ¬(((c :: rest).drop 5).takeWhile isWs).isEmpty then
      removeBiboron (((c :: rest).drop 5).dropWhile isWs)
    else c :: removeBiboron rest
termination_by s => s.length
decreasing_by
  · have h1 := dropWhile_len_le isWs ((c :: rest).drop 5)
    simp only [List.length_drop, List.length_cons] at *
    omega
  · simp

/-- The ParseSummary counters.  The wall-clock processingTime field is
omitted: it is a measurement of the run, not of the input. -/
structure ParseSummaryR where
  totalLines : Nat
  successfulTransactions : Nat
  failedLines : Nat
  duplicatesSkipped : Nat
deriving Repr, DecidableEq

/-- The ParseResult.  The returned suspiciousTransactions array of the source
is a local that nothing ever pushes to (the per-line suspicious records are
computed and discarded), so it is constantly empty and omitted here. -/
structure ParseResultR where
  transactions : List Txn
  errors : List PErr
  summary : ParseSummaryR
deriving Repr, DecidableEq

/-- Step 1 of parseFile: split into lines, strip biboron prefixes and trim,
drop empty lines. -/
def processedLines (content : Str) : List Str :=
  ((splitOnC (fun c => decide (c = '\n')) content).map
    (fun l => trimS (removeBiboron l))).filter (fun l => !l.isEmpty)

/-- The transactions surviving grouping and deduplication. -/
def pipelineTxns (gen : Nat → Str) (now : Int) (content : Str) : List Txn :=
  removeDuplicates (contextBasedCategorizing
    (enhancedGo gen now (processedLines content) 0 none [] 0).1)

/-- parseFile: the processed lines run through the enhanced parsing loop,
similarity grouping and deduplication, with the counter summary. -/
def parseFile (gen : Nat → Str) (now : Int) (content : Str) : ParseResultR :=
  ⟨pipelineTxns gen now content,
    (enhancedGo gen now (processedLines content) 0 none [] 0).2.1,
    ⟨(splitOnC (fun c => decide (c = '\n')) content).length,
      (pipelineTxns gen now content).length,
      (enhancedGo gen now (processedLines content) 0 none [] 0).2.1.length,
      (contextBasedCategorizing
          (enhancedGo gen now (processedLines content) 0 none [] 0).1).length -
        (pipelineTxns gen now content).length⟩⟩

/-! ### C3: amount bounds of the simple extraction strategies -/

theorem strat1_bounds : ∀ (ws : List Str) (ps : List Pair), strat1 ws = Except.ok ps →
    ∀ p ∈ ps, 0 < p.amount ∧ p.amount ≤ 1000
  | [], ps, h, p, hp => by
    simp only [strat1] at h
    injection h with h'
    subst h'
    simp at hp
  | [w], ps, h, p, hp => by
    simp only [strat1] at h
    injection h with h'
    subst h'
    simp at hp
  | w1 :: w2 :: rest, ps, h, p, hp => by
    simp only [strat1] at h
    split at h
    · split at h
      · rename_i hcond hok
        rcases hrec : strat1 (w2 :: rest) with e | ps'
        · rw [hrec] at h
          exact absurd h (by simp)
        · simp only [hrec] at h
          injection h with h'
          subst h'
          rcases List.mem_cons.mp hp with hp | hp
          · subst hp
            exact ⟨hok.2.1, hok.2.2⟩
          · exact strat1_bounds (w2 :: rest) ps' hrec p hp
      · exact absurd h (by simp)
    · exact strat1_bounds (w2 :: rest) ps h p hp

theorem strat2_bounds : ∀ (l : List (Str × Str)) (ps : List Pair),
    strat2 l = Except.ok ps → ∀ p ∈ ps, 0 < p.amount ∧ p.amount ≤ 1000
  | [], ps, h, p, hp => by
    simp only [strat2] at h
    injection h with h'
    subst h'
    simp at hp
  | (letters, digits) :: rest, ps, h, p, hp => by
    simp only [strat2] at h
    split at h
    · exact strat2_bounds rest ps h p hp
    · split at h
      · rename_i hna hok
        rcases hrec : strat2 rest with e | ps'
        · rw [hrec] at h
          exact absurd h (by simp)
        · simp only [hrec] at h
          injection h with h'
          subst h'
          rcases List.mem_cons.mp hp with hp | hp
          · subst hp
            exact ⟨hok.2.1, hok.2.2⟩
          · exact strat2_bounds rest ps' hrec p hp
      · exact absurd h (by simp)

theorem findSimple_bounds (text : Str) (ps : List Pair)
    (h : findSimpleItemAmountPairs text = Except.ok ps) :
    ∀ p ∈ ps, 0 < p.amount ∧ p.amount ≤ 1000 := by
  intro p hp
  simp only [findSimpleItemAmountPairs] at h
  rcases h1 : strat1 (splitWsJS (convertBengaliNumerals text)) with e | p1
  · rw [h1] at h
    exact absurd h (by simp)
  · simp only [h1] at h
    rcases h2 : strat2 (scanAttached (convertBengaliNumerals text)) with e | p2
    · rw [h2] at h
      exact absurd h (by simp)
    · simp only [h2] at h
      injection h with h'
      subst h'
      rcases List.mem_append.mp hp with hp | hp
      · exact strat1_bounds _ p1 h1 p hp
      · exact strat2_bounds _ p2 h2 p hp

theorem mkTxs_bounds (sender : Str) (dateMs : Int) (text : Str) (now : Int)
    (gen : Nat → Str) (P : ℚ → Prop) :
    ∀ (ps : List Pair) (k : Nat), (∀ p ∈ ps, P p.amount) →
      ∀ t ∈ (mkTxs sender dateMs text now gen ps k).1, P t.amount
  | [], k, hps, t, ht => by simp [mkTxs] at ht
  | q :: ps, k, hps, t, ht => by
    simp only [mkTxs] at ht
    split at ht
    · rcases List.mem_cons.mp ht with ht | ht
      · subst ht
        exact hps q (List.mem_cons_self _ _)
      · exact mkTxs_bounds sender dateMs text now gen P ps (k + 1)
          (fun p hp => hps p (List.mem_cons_of_mem _ hp)) t ht
    · exact mkTxs_bounds sender dateMs text now gen P ps k
        (fun p hp => hps p (List.mem_cons_of_mem _ hp)) t ht

/-- C3: when the structured-total (kena) pattern is absent, every pair
returned by the extraction strategies and every transaction built from them
has an amount strictly between 0 and 1000 inclusive; amounts above 1000 can
only come from the kena branch. -/
theorem c3_amount_bounds (text sender : Str) (dateMs : Int) (gen : Nat → Str)
    (k : Nat) (now : Int) (ps : List Pair) (ts : List Txn) (k2 : Nat)
    (hp : findSimpleItemAmountPairs (convertBengaliNumerals text) = Except.ok ps)
    (hk : kenaScan (convertBengaliNumerals text) = none)
    (ht : validateAndExtractTransactions text sender dateMs gen k now =
      Except.ok (ts, k2)) :
    (∀ p ∈ ps, 0 < p.amount ∧ p.amount ≤ 1000) ∧
    ∀ t ∈ ts, 0 < t.amount ∧ t.amount ≤ 1000 := by
  refine ⟨findSimple_bounds _ ps hp, ?_⟩
  simp only [validateAndExtractTransactions, hk] at ht
  rcases hf : findSimpleItemAmountPairs (convertBengaliNumerals text) with e | ps'
  · rw [hf] at ht
    exact absurd ht (by simp)
  · simp only [hf] at ht
    injection ht with ht'
    have hts : ts = (mkTxs sender dateMs text now gen ps' k).1 := by
      rw [ht']
    rw [hts]
    rw [hp] at hf
    injection hf with hf'
    subst hf'
    exact mkTxs_bounds sender dateMs text now gen (fun a => 0 < a ∧ a ≤ 1000) ps k
      (findSimple_bounds _ ps hp)

instance {e a : Type} [DecidableEq e] [DecidableEq a] : DecidableEq (Except e a) :=
  fun x y =>
    match x, y with
    | Except.error u, Except.error v =>
      if h : u = v then isTrue (by rw [h]) else isFalse (by simp [h])
    | Except.ok u, Except.ok v =>
      if h : u = v then isTrue (by rw [h]) else isFalse (by simp [h])
    | Except.error _, Except.ok _ => isFalse (by simp)
    | Except.ok _, Except.error _ => isFalse (by simp)

/-- C3 witness: the message milk 100 extracts the single pair (milk, 100) and
the single bounded transaction. -/
theorem c3_amount_bounds_witness :
    (∀ p ∈ [(⟨"milk".toList, 100⟩ : Pair)], 0 < p.amount ∧ p.amount ≤ 1000) ∧
    ∀ t ∈ [(⟨[], 0, "monir".toList, "milk".toList, 100, "milk 100".toList, 0⟩ : Txn)],
      0 < t.amount ∧ t.amount ≤ 1000 :=
  c3_amount_bounds ("milk 100".toList) ("monir".toList) 0 (fun _ => []) 0 0
    [⟨"milk".toList, 100⟩]
    [⟨[], 0, "monir".toList, "milk".toList, 100, "milk 100".toList, 0⟩] 1
    (by decide) (by decide) (by decide)

/-! ### C7: parseFile error accounting -/

theorem head?_dropWhile_not {α : Type} (p : α → Bool) :
    ∀ l : List α, ∀ a, (l.dropWhile p).head? = some a → p a = false
  | [], a, h => by simp [List.dropWhile] at h
  | c :: rest, a, h => by
    simp only [List.dropWhile_cons] at h
    split at h
    · exact head?_dropWhile_not p rest a h
    · rename_i hc
      simp only [List.head?_cons, Option.some.injEq] at h
      subst h
      simpa using hc

theorem dropWhile_of_head? {α : Type} (p : α → Bool) (l : List α) (a : α)
    (h1 : l.head? = some a) (h2 : p a = false) : l.dropWhile p = l := by
  cases l with
  | nil => rfl
  | cons c rest =>
    simp only [List.head?_cons, Option.some.injEq] at h1
    subst h1
    simp [List.dropWhile_cons, h2]

theorem dropWhile_idem {α : Type} (p : α → Bool) :
    ∀ l : List α, (l.dropWhile p).dropWhile p = l.dropWhile p
  | [] => rfl
  | c :: rest => by
    simp only [List.dropWhile_cons]
    cases hc : p c
    · simp [List.dropWhile_cons, hc]
    · simpa using dropWhile_idem p rest

theorem getLast?_dropWhile {α : Type} (p : α → Bool) :
    ∀ l : List α, l.dropWhile p ≠ [] → (l.dropWhile p).getLast? = l.getLast?
  | [], h => by simp [List.dropWhile] at h
  | c :: rest, h => by
    simp only [List.dropWhile_cons] at *
    cases hc : p c
    · simp only [hc, Bool.false_eq_true, if_false] at h ⊢
    · simp only [hc, if_true] at h ⊢
      have hrest : rest ≠ [] := by
        intro he
        rw [he] at h
        simp [List.dropWhile] at h
      cases rest with
      | nil => exact absurd rfl hrest
      | cons r rs =>
        rw [List.getLast?_cons_cons]
        exact getLast?_dropWhile p (r :: rs) h

/-- JS trim is idempotent. -/
theorem trimS_idem (s : Str) : trimS (trimS s) = trimS s := by
  by_cases hv : (s.dropWhile isWs).reverse.dropWhile isWs = []
  · unfold trimS
    rw [hv]
    simp
  · have hane : s.dropWhile isWs ≠ [] := by
      intro he
      apply hv
      rw [he]
      rfl
    obtain ⟨a0, ha0⟩ : ∃ a0, (s.dropWhile isWs).head? = some a0 := by
      cases hq : (s.dropWhile isWs).head? with
      | none => exact absurd (List.head?_eq_none_iff.mp hq) hane
      | some a0 => exact ⟨a0, rfl⟩
    have hws : isWs a0 = false := head?_dropWhile_not isWs s a0 ha0
    have hth : ((s.dropWhile isWs).reverse.dropWhile isWs).reverse.head? = some a0 := by
      rw [List.head?_reverse, getLast?_dropWhile isWs _ hv, List.getLast?_reverse]
      exact ha0
    unfold trimS
    rw [dropWhile_of_head? isWs _ a0 hth hws, List.reverse_reverse, dropWhile_idem]

theorem strat1_error : ∀ (ws : List Str) (e : Str),
    strat1 ws = Except.error e → e = itemNotDefined
  | [], e, h => by simp [strat1] at h
  | [w], e, h => by simp [strat1] at h
  | w1 :: w2 :: rest, e, h => by
    simp only [strat1] at h
    split at h
    · split at h
      · rcases hrec : strat1 (w2 :: rest) with e' | ps'
        · simp only [hrec] at h
          injection h with h'
          subst h'
          exact strat1_error (w2 :: rest) _ hrec
        · simp only [hrec] at h
          exact absurd h (by simp)
      · injection h with h'
        exact h'.symm
    · exact strat1_error (w2 :: rest) e h

theorem strat2_error : ∀ (l : List (Str × Str)) (e : Str),
    strat2 l = Except.error e → e = itemNotDefined
  | [], e, h => by simp [strat2] at h
  | (letters, digits) :: rest, e, h => by
    simp only [strat2] at h
    split at h
    · exact strat2_error rest e h
    · split at h
      · rcases hrec : strat2 rest with e' | ps'
        · simp only [hrec] at h
          injection h with h'
          subst h'
          exact strat2_error rest _ hrec
        · simp only [hrec] at h
          exact absurd h (by simp)
      · injection h with h'
        exact h'.symm

theorem findSimple_error (text : Str) (e : Str)
    (h : findSimpleItemAmountPairs text = Except.error e) : e = itemNotDefined := by
  simp only [findSimpleItemAmountPairs] at h
  rcases h1 : strat1 (splitWsJS (convertBengaliNumerals text)) with e' | p1
  · simp only [h1] at h
    injection h with h'
    subst h'
    exact strat1_error _ _ h1
  · simp only [h1] at h
    rcases h2 : strat2 (scanAttached (convertBengaliNumerals text)) with e' | p2
    · simp only [h2] at h
      injection h with h'
      subst h'
      exact strat2_error _ _ h2
    · simp only [h2] at h
      exact absurd h (by simp)

theorem validate_error (text sender : Str) (dateMs : Int) (gen : Nat → Str)
    (k : Nat) (now : Int) (e : Str)
    (h : validateAndExtractTransactions text sender dateMs gen k now =
      Except.error e) : e = itemNotDefined := by
  simp only [validateAndExtractTransactions] at h
  rcases hk : kenaScan (convertBengaliNumerals text) with _ | d
  · simp only [hk] at h
    rcases hf : findSimpleItemAmountPairs (convertBengaliNumerals text) with e' | ps
    · simp only [hf] at h
      injection h with h'
      subst h'
      exact findSimple_error _ _ hf
    · simp only [hf] at h
      exact absurd h (by simp)
  · simp only [hk] at h
    exact absurd h (by simp)

theorem enhancedGo_errors (gen : Nat → Str) (now : Int) :
    ∀ (ls : List Str) (i : Nat) (cd : Option Int) (cs : Str) (k : Nat),
      ∀ e ∈ (enhancedGo gen now ls i cd cs k).2.1,
        i < e.line ∧ e.line ≤ i + ls.length ∧
          e.originalText ∈ ls.map trimS ∧ e.message = itemNotDefined
  | [], i, cd, cs, k, e, he => by simp [enhancedGo] at he
  | l :: rest, i, cd, cs, k, e, he => by
    have step : ∀ (cd' : Option Int) (cs' : Str) (k' : Nat),
        e ∈ (enhancedGo gen now rest (i + 1) cd' cs' k').2.1 →
        i < e.line ∧ e.line ≤ i + (l :: rest).length ∧
          e.originalText ∈ (l :: rest).map trimS ∧ e.message = itemNotDefined := by
      intro cd' cs' k' hmem
      obtain ⟨h1, h2, h3, h4⟩ := enhancedGo_errors gen now rest (i + 1) cd' cs' k' e hmem
      refine ⟨by omega, ?_, List.mem_cons_of_mem _ h3, h4⟩
      simp only [List.length_cons]
      omega
    simp only [enhancedGo] at he
    by_cases hemp : (trimS l).isEmpty = true
    · rw [if_pos hemp] at he
      exact step cd cs k he
    · rw [if_neg hemp] at he
      rcases hm : matchHeader (trimS l) with _ | hd
      · simp only [hm] at he
        rcases hdo : dateOnlyMatch (trimS l) with _ | dmy
        · simp only [hdo] at he
          by_cases hcs : strLower (if cs.isEmpty then "unknown".toList else cs) =
              "monir".toList
          · rw [if_pos hcs] at he
            rcases hv : validateAndExtractTransactions (trimS l)
                (if cs.isEmpty then "unknown".toList else cs)
                (cd.getD now) gen k now with msg | tk
            · simp only [hv] at he
              rcases List.mem_cons.mp he with he | he
              · subst he
                refine ⟨by dsimp only; omega, ?_, ?_,
                  validate_error _ _ _ gen k now msg hv⟩
                · dsimp only
                  simp only [List.length_cons]
                  omega
                · dsimp only
                  simp [List.map_cons]
              · exact step cd cs k he
            · simp only [hv] at he
              exact step cd cs tk.2 he
          · rw [if_neg hcs] at he
            exact step cd cs k he
        · simp only [hdo] at he
          exact step _ cs k he
      · simp only [hm] at he
        rcases hp : parseDate hd.dateStr hd.timeStr hd.ampm with _ | d
        · simp only [hp] at he
          exact step none _ k he
        · simp only [hp] at he
          by_cases hs : strLower (normalizeSenderName hd.sender) = "monir".toList
          · rw [if_pos hs] at he
            rcases hv : validateAndExtractTransactions hd.message
                (normalizeSenderName hd.sender) d gen k now with msg | tk
            · simp only [hv] at he
              rcases List.mem_cons.mp he with he | he
              · subst he
                refine ⟨by dsimp only; omega, ?_, ?_,
                  validate_error _ _ _ gen k now msg hv⟩
                · dsimp only
                  simp only [List.length_cons]
                  omega
                · dsimp only
                  simp [List.map_cons]
              · exact step _ _ k he
            · simp only [hv] at he
              exact step _ _ tk.2 he
          · rw [if_neg hs] at he
            exact step _ _ k he

theorem removeDupAux_len_le : ∀ (ts : List Txn) (seen : List (Str × Str × ℚ × Int)),
    (removeDupAux ts seen).length ≤ ts.length
  | [], _ => by simp [removeDupAux]
  | t :: ts, seen => by
    simp only [removeDupAux]
    split
    · exact le_trans (removeDupAux_len_le ts seen) (Nat.le_succ _)
    · simpa using removeDupAux_len_le ts (dedupKey t :: seen)

/-- C7: parseFile always returns a complete, internally consistent result:
the summary counts the input lines, the surviving transactions and the
recorded errors exactly; duplicatesSkipped plus the survivors account for
every grouped transaction; and every recorded ParseError carries a 1-based
line number within range, the processed line's own text, and the message of
the only exception the extraction can throw (the rejection branches' item
ReferenceError) — errors are accumulated, never propagated. -/
theorem c7_parseFile_error_accounting (gen : Nat → Str) (now : Int) (content : Str) :
    (parseFile gen now content).summary.totalLines =
      (splitOnC (fun c => decide (c = '\n')) content).length ∧
    (parseFile gen now content).summary.successfulTransactions =
      (parseFile gen now content).transactions.length ∧
    (parseFile gen now content).summary.failedLines =
      (parseFile gen now content).errors.length ∧
    (parseFile gen now content).summary.duplicatesSkipped +
        (parseFile gen now content).transactions.length =
      (contextBasedCategorizing
        (enhancedGo gen now (processedLines content) 0 none [] 0).1).length ∧
    ∀ e ∈ (parseFile gen now content).errors,
      1 ≤ e.line ∧ e.line ≤ (processedLines content).length ∧
        e.originalText ∈ processedLines content ∧ e.message = itemNotDefined := by
  have hfix : (processedLines content).map trimS = processedLines content := by
    have hall : ∀ x ∈ processedLines content, trimS x = x := by
      intro x hx
      simp only [processedLines, List.mem_filter, List.mem_map] at hx
      obtain ⟨⟨y, hy, hxy⟩, _⟩ := hx
      rw [← hxy]
      exact trimS_idem (removeBiboron y)
    rw [List.map_congr_left hall]
    simp
  refine ⟨rfl, rfl, rfl, ?_, ?_⟩
  · have hle : (pipelineTxns gen now content).length ≤
        (contextBasedCategorizing
          (enhancedGo gen now (processedLines content) 0 none [] 0).1).length := by
      simp only [pipelineTxns, removeDuplicates]
      exact removeDupAux_len_le _ _
    simp only [parseFile]
    omega
  · intro e he
    have hmem : e ∈ (enhancedGo gen now (processedLines content) 0 none [] 0).2.1 := he
    obtain ⟨h1, h2, h3, h4⟩ :=
      enhancedGo_errors gen now (processedLines content) 0 none [] 0 e hmem
    rw [hfix] at h3
    exact ⟨by omega, by omega, h3, h4⟩

/-! ### C4: only monir's lines produce transactions -/

theorem mkTxs_sender (sender : Str) (dateMs : Int) (text : Str) (now : Int)
    (gen : Nat → Str) :
    ∀ (ps : List Pair) (k : Nat),
      ∀ t ∈ (mkTxs sender dateMs text now gen ps k).1, t.sender = sender
  | [], k, t, ht => by simp [mkTxs] at ht
  | q :: ps, k, t, ht => by
    simp only [mkTxs] at ht
    split at ht
    · rcases List.mem_cons.mp ht with ht | ht
      · subst ht
        rfl
      · exact mkTxs_sender sender dateMs text now gen ps (k + 1) t ht
    · exact mkTxs_sender sender dateMs text now gen ps k t ht

theorem validate_sender (text sender : Str) (dateMs : Int) (gen : Nat → Str)
    (k : Nat) (now : Int) (tk : List Txn × Nat)
    (h : validateAndExtractTransactions text sender dateMs gen k now = Except.ok tk) :
    ∀ t ∈ tk.1, t.sender = sender := by
  intro t ht
  simp only [validateAndExtractTransactions] at h
  rcases hk : kenaScan (convertBengaliNumerals text) with _ | d
  · simp only [hk] at h
    rcases hf : findSimpleItemAmountPairs (convertBengaliNumerals text) with e | ps
    · simp only [hf] at h
      exact absurd h (by simp)
    · simp only [hf] at h
      injection h with h'
      subst h'
      exact mkTxs_sender sender dateMs text now gen ps k t ht
  · simp only [hk] at h
    injection h with h'
    subst h'
    simp only [List.mem_singleton] at ht
    subst ht
    rfl

theorem enhancedGo_sender (gen : Nat → Str) (now : Int) :
    ∀ (ls : List Str) (i : Nat) (cd : Option Int) (cs : Str) (k : Nat),
      ∀ t ∈ (enhancedGo gen now ls i cd cs k).1,
        strLower t.sender = "monir".toList
  | [], i, cd, cs, k, t, ht => by simp [enhancedGo] at ht
  | l :: rest, i, cd, cs, k, t, ht => by
    simp only [enhancedGo] at ht
    by_cases hemp : (trimS l).isEmpty = true
    · rw [if_pos hemp] at ht
      exact enhancedGo_sender gen now rest (i + 1) cd cs k t ht
    · rw [if_neg hemp] at ht
      rcases hm : matchHeader (trimS l) with _ | hd
      · simp only [hm] at ht
        rcases hdo : dateOnlyMatch (trimS l) with _ | dmy
        · simp only [hdo] at ht
          by_cases hcs : strLower (if cs.isEmpty then "unknown".toList else cs) =
              "monir".toList
          · rw [if_pos hcs] at ht
            rcases hv : validateAndExtractTransactions (trimS l)
                (if cs.isEmpty then "unknown".toList else cs)
                (cd.getD now) gen k now with msg | tk
            · simp only [hv] at ht
              exact enhancedGo_sender gen now rest (i + 1) cd cs k t ht
            · simp only [hv] at ht
              rcases List.mem_append.mp ht with ht | ht
              · rw [validate_sender _ _ _ gen k now tk hv t ht]
                exact hcs
              · exact enhancedGo_sender gen now rest (i + 1) cd cs tk.2 t ht
          · rw [if_neg hcs] at ht
            exact enhancedGo_sender gen now rest (i + 1) cd cs k t ht
        · simp only [hdo] at ht
          exact enhancedGo_sender gen now rest (i + 1) _ cs k t ht
      · simp only [hm] at ht
        rcases hp : parseDate hd.dateStr hd.timeStr hd.ampm with _ | d
        · simp only [hp] at ht
          exact enhancedGo_sender gen now rest (i + 1) none _ k t ht
        · simp only [hp] at ht
          by_cases hs : strLower (normalizeSenderName hd.sender) = "monir".toList
          · rw [if_pos hs] at ht
            rcases hv : validateAndExtractTransactions hd.message
                (normalizeSenderName hd.sender) d gen k now with msg | tk
            · simp only [hv] at ht
              exact enhancedGo_sender gen now rest (i + 1) (some d) _ k t ht
            · simp only [hv] at ht
              rcases List.mem_append.mp ht with ht | ht
              · rw [validate_sender _ _ _ gen k now tk hv t ht]
                exact hs
              · exact enhancedGo_sender gen now rest (i + 1) (some d) _ tk.2 t ht
          · rw [if_neg hs] at ht
            exact enhancedGo_sender gen now rest (i + 1) (some d) _ k t ht

theorem mergeLoop_sender (gOf : Str → List Txn) (allKeys : List Str)
    (P : Str → Prop) (hg : ∀ kk, ∀ t ∈ gOf kk, P t.sender) :
    ∀ (ks processed : List Str), ∀ t ∈ mergeLoop gOf allKeys ks processed, P t.sender
  | [], pr, t, ht => by simp [mergeLoop] at ht
  | k1 :: rest, pr, t, ht => by
    simp only [mergeLoop] at ht
    split at ht
    · exact mergeLoop_sender gOf allKeys P hg rest pr t ht
    · rcases List.mem_append.mp ht with ht | ht
      · obtain ⟨t0, ht0, rfl⟩ := List.mem_map.mp ht
        rcases List.mem_append.mp ht0 with h0 | h0
        · exact hg k1 t0 h0
        · obtain ⟨lt, hlt, h0⟩ := List.mem_flatten.mp h0
          obtain ⟨kk, hkk, rfl⟩ := List.mem_map.mp hlt
          exact hg kk t0 h0
      · exact mergeLoop_sender gOf allKeys P hg rest _ t ht

theorem categorize_sender (ts : List Txn) (P : Str → Prop)
    (h : ∀ t ∈ ts, P t.sender) :
    ∀ t ∈ contextBasedCategorizing ts, P t.sender := by
  intro t ht
  exact mergeLoop_sender _ _ P
    (fun kk t' ht' => h t' (List.mem_filter.mp ht').1) _ _ t ht

theorem removeDupAux_subset : ∀ (ts : List Txn) (seen : List (Str × Str × ℚ × Int)),
    ∀ t ∈ removeDupAux ts seen, t ∈ ts
  | [], _, t, ht => by simp [removeDupAux] at ht
  | t0 :: ts, seen, t, ht => by
    simp only [removeDupAux] at ht
    split at ht
    · exact List.mem_cons_of_mem _ (removeDupAux_subset ts seen t ht)
    · rcases List.mem_cons.mp ht with ht | ht
      · subst ht
        exact List.mem_cons_self _ _
      · exact List.mem_cons_of_mem _ (removeDupAux_subset ts _ t ht)

/-- C4: every transaction parseFile returns carries a sender that lowercases
to monir; lines whose carried sender is anyone else — or unknown — contribute
no transactions, because the extraction call sites are guarded by the
case-insensitive monir comparison. -/
theorem c4_sender_filter (gen : Nat → Str) (now : Int) (content : Str) :
    (parseFile gen now content).transactions.Forall
      (fun t => strLower t.sender = "monir".toList) := by
  rw [List.forall_iff_forall_mem]
  intro t ht
  simp only [parseFile, pipelineTxns, removeDuplicates] at ht
  have h1 : t ∈ contextBasedCategorizing
      (enhancedGo gen now (processedLines content) 0 none [] 0).1 :=
    removeDupAux_subset _ [] t ht
  exact categorize_sender _ (fun sd => strLower sd = "monir".toList)
    (fun t' ht' => enhancedGo_sender gen now _ 0 none [] 0 t' ht') t h1

/-! ### C9: determinism of parsing modulo generated ids and wall-clock stamps

strip projects a transaction to the (sender, item, amount, date) tuple of the
claim; the id supply gen and the wall clock now only reach the id and
createdAt fields, except through the date fallback of a continuation line
with no date context — which the monir guard makes unreachable, because a
monir sender context always comes with a successfully parsed header date. -/

/-- The observable tuple of a transaction. -/
def strip (t : Txn) : Str × Str × ℚ × Int := (t.sender, t.item, t.amount, t.timeMs)

theorem mkTxs_strip (sender : Str) (dateMs : Int) (text : Str)
    (gen gen' : Nat → Str) (now now' : Int) :
    ∀ (ps : List Pair) (k k' : Nat),
      (mkTxs sender dateMs text now gen ps k).1.map strip =
        (mkTxs sender dateMs text now' gen' ps k').1.map strip
  | [], k, k' => by simp [mkTxs]
  | q :: ps, k, k' => by
    simp only [mkTxs]
    split
    · simp only [List.map_cons]
      rw [mkTxs_strip sender dateMs text gen gen' now now' ps (k + 1) (k' + 1)]
      rfl
    · exact mkTxs_strip sender dateMs text gen gen' now now' ps k k'

theorem validate_error_congr (text sender : Str) (dateMs : Int)
    (gen gen' : Nat → Str) (k k' : Nat) (now now' : Int) (e : Str)
    (h : validateAndExtractTransactions text sender dateMs gen k now =
      Except.error e) :
    validateAndExtractTransactions text sender dateMs gen' k' now' =
      Except.error e := by
  simp only [validateAndExtractTransactions] at h ⊢
  rcases hk : kenaScan (convertBengaliNumerals text) with _ | d
  · simp only [hk] at h ⊢
    rcases hf : findSimpleItemAmountPairs (convertBengaliNumerals text) with e' | ps
    · simp only [hf] at h ⊢
      exact h
    · simp only [hf] at h
      exact absurd h (by simp)
  · simp only [hk] at h
    exact absurd h (by simp)

theorem validate_ok_congr (text sender : Str) (dateMs : Int)
    (gen gen' : Nat → Str) (k k' : Nat) (now now' : Int) (tk : List Txn × Nat)
    (h : validateAndExtractTransactions text sender dateMs gen k now =
      Except.ok tk) :
    ∃ tk', validateAndExtractTransactions text sender dateMs gen' k' now' =
        Except.ok tk' ∧ tk.1.map strip = tk'.1.map strip := by
  simp only [validateAndExtractTransactions] at h ⊢
  rcases hk : kenaScan (convertBengaliNumerals text) with _ | d
  · simp only [hk] at h ⊢
    rcases hf : findSimpleItemAmountPairs (convertBengaliNumerals text) with e' | ps
    · simp only [hf] at h
      exact absurd h (by simp)
    · simp only [hf] at h ⊢
      injection h with h'
      subst h'
      exact ⟨_, rfl, mkTxs_strip sender dateMs text gen gen' now now' ps k k'⟩
  · simp only [hk] at h ⊢
    injection h with h'
    subst h'
    exact ⟨_, rfl, rfl⟩

theorem map_filter_congr {α β : Type} (f : α → β) (p : β → Bool) :
    ∀ (as bs : List α), as.map f = bs.map f →
      (as.filter (fun x => p (f x))).map f = (bs.filter (fun x => p (f x))).map f
  | [], [], _ => rfl
  | [], b :: bs, h => by simp at h
  | a :: as, [], h => by simp at h
  | a :: as, b :: bs, h => by
    simp only [List.map_cons, List.cons.injEq] at h
    simp only [List.filter_cons, h.1]
    split
    · simp only [List.map_cons, h.1, List.cons.injEq]
      exact ⟨trivial, map_filter_congr f p as bs h.2⟩
    · exact map_filter_congr f p as bs h.2

theorem map_item_of_strip (l l' : List Txn) (h : l.map strip = l'.map strip) :
    l.map Txn.item = l'.map Txn.item := by
  have e : ∀ m : List Txn, m.map Txn.item = (m.map strip).map (fun q => q.2.1) :=
    fun m => by rw [List.map_map]; rfl
  rw [e, e, h]

theorem map_subst_strip2 : ∀ (l l' : List Txn) (b : Str),
    l.map strip = l'.map strip →
    (l.map (fun t => { t with item := b })).map strip =
      (l'.map (fun t => { t with item := b })).map strip
  | [], [], _, _ => rfl
  | [], x :: _, _, h => by simp at h
  | x :: _, [], _, h => by simp at h
  | a :: as, c :: cs, b, h => by
    simp only [List.map_cons, List.cons.injEq] at h ⊢
    have h1 : a.sender = c.sender ∧ a.item = c.item ∧ a.amount = c.amount ∧
        a.timeMs = c.timeMs := by
      have := h.1
      simp only [strip, Prod.mk.injEq] at this
      exact this
    refine ⟨?_, map_subst_strip2 as cs b h.2⟩
    simp only [strip, h1.1, h1.2.2.1, h1.2.2.2]

theorem mergeLoop_strip (gOf gOf' : Str → List Txn) (allKeys : List Str)
    (hg : ∀ kk, (gOf kk).map strip = (gOf' kk).map strip) :
    ∀ (ks processed : List Str),
      (mergeLoop gOf allKeys ks processed).map strip =
        (mergeLoop gOf' allKeys ks processed).map strip
  | [], pr => by simp [mergeLoop]
  | k1 :: rest, pr => by
    simp only [mergeLoop]
    split
    · exact mergeLoop_strip gOf gOf' allKeys hg rest pr
    · have hflat : (((allKeys.filter (fun k2 =>
          decide (k2 ≠ k1) && decide (k2 ∉ pr) && simOK k1 k2)).map gOf).flatten).map strip =
          (((allKeys.filter (fun k2 =>
          decide (k2 ≠ k1) && decide (k2 ∉ pr) && simOK k1 k2)).map gOf').flatten).map strip := by
        rw [List.map_flatten, List.map_flatten, List.map_map, List.map_map]
        congr 1
        exact List.map_congr_left (fun kk _ => hg kk)
      simp only [List.map_append]
      rw [map_item_of_strip _ _ (hg k1), map_item_of_strip _ _ hflat]
      congr 1
      · congr 1
        · exact map_subst_strip2 _ _ _ (hg k1)
        · exact map_subst_strip2 _ _ _ hflat
      · exact mergeLoop_strip gOf gOf' allKeys hg rest _

theorem categorize_strip (as bs : List Txn) (h : as.map strip = bs.map strip) :
    (contextBasedCategorizing as).map strip =
      (contextBasedCategorizing bs).map strip := by
  have hkeys : as.map (fun t => getNormalizedItemKey t.item) =
      bs.map (fun t => getNormalizedItemKey t.item) := by
    have e : ∀ m : List Txn, m.map (fun t => getNormalizedItemKey t.item) =
        (m.map strip).map (fun q => getNormalizedItemKey q.2.1) :=
      fun m => by rw [List.map_map]; rfl
    rw [e, e, h]
  simp only [contextBasedCategorizing]
  rw [hkeys]
  exact mergeLoop_strip _ _ _
    (fun kk => map_filter_congr strip
      (fun q => decide (getNormalizedItemKey q.2.1 = kk)) as bs h) _ _

theorem removeDupAux_strip : ∀ (as bs : List Txn) (seen : List (Str × Str × ℚ × Int)),
    as.map strip = bs.map strip →
    (removeDupAux as seen).map strip = (removeDupAux bs seen).map strip
  | [], [], _, _ => rfl
  | [], b :: bs, _, h => by simp at h
  | a :: as, [], _, h => by simp at h
  | a :: as, b :: bs, seen, h => by
    simp only [List.map_cons, List.cons.injEq] at h
    have h1 : a.sender = b.sender ∧ a.item = b.item ∧ a.amount = b.amount ∧
        a.timeMs = b.timeMs := by
      have := h.1
      simp only [strip, Prod.mk.injEq] at this
      exact this
    have hk : dedupKey a = dedupKey b := by
      simp only [dedupKey, h1.1, h1.2.1, h1.2.2.1, h1.2.2.2]
    simp only [removeDupAux, hk]
    split
    · exact removeDupAux_strip as bs seen h.2
    · simp only [List.map_cons, h.1, List.cons.injEq]
      exact ⟨trivial, removeDupAux_strip as bs _ h.2⟩

/-! The monir-context invariant needs that a matched header always parses to a
valid date: the header pattern pins the digit-run shapes of the date and time
captures, whose component values keep the Date well inside the ECMAScript
time range. -/

theorem digit_ne_slash {c : Char} (h : isDigitC c = true) :
    decide (c = '/') = false := by
  rcases Decidable.em (c = '/') with he | he
  · subst he
    exact absurd h (by decide)
  · simp [he]

theorem digit_ne_colon {c : Char} (h : isDigitC c = true) :
    decide (c = ':') = false := by
  rcases Decidable.em (c = ':') with he | he
  · subst he
    exact absurd h (by decide)
  · simp [he]

theorem takeWhile_all {α : Type} (p : α → Bool) :
    ∀ l : List α, (l.takeWhile p).all p = true
  | [] => rfl
  | c :: rest => by
    simp only [List.takeWhile_cons]
    split
    · rename_i hc
      simp [hc, takeWhile_all p rest]
    · rfl

theorem all_take {α : Type} (p : α → Bool) (l : List α) (n : Nat)
    (h : l.all p = true) : (l.take n).all p = true := by
  rw [List.all_eq_true] at h ⊢
  intro x hx
  exact h x (List.mem_of_mem_take hx)

theorem take_eq_take_takeWhile {α : Type} (p : α → Bool) :
    ∀ (l : List α) (n : Nat), n ≤ (l.takeWhile p).length →
      l.take n = (l.takeWhile p).take n
  | _, 0, _ => by simp
  | [], n + 1, h => by
    rw [List.takeWhile_nil] at h
    exact absurd h (by simp)
  | c :: rest, n + 1, h => by
    rw [List.takeWhile_cons] at h ⊢
    cases hc : p c
    · rw [hc] at h
      simp at h
    · rw [hc] at h
      rw [if_pos rfl] at h ⊢
      rw [List.take_succ_cons, List.take_succ_cons]
      rw [take_eq_take_takeWhile p rest n (by simp only [List.length_cons] at h; omega)]

theorem splitOnC_no_sep (p : Char → Bool) : ∀ (a : Str),
    (∀ x ∈ a, p x = false) → splitOnC p a = [a]
  | [], _ => rfl
  | c :: rest, h => by
    simp only [splitOnC, h c (List.mem_cons_self _ _), Bool.false_eq_true, if_false,
      splitOnC_no_sep p rest (fun x hx => h x (List.mem_cons_of_mem _ hx))]

theorem splitOnC_append_sep (p : Char → Bool) : ∀ (a : Str) (c : Char) (b : Str),
    (∀ x ∈ a, p x = false) → p c = true →
    splitOnC p (a ++ c :: b) = a :: splitOnC p b
  | [], c, b, _, hc => by
    simp only [List.nil_append, splitOnC, hc, if_true]
  | x :: a, c, b, h, hc => by
    have hrec := splitOnC_append_sep p a c b
      (fun y hy => h y (List.mem_cons_of_mem _ hy)) hc
    rw [List.cons_append]
    simp only [splitOnC, h x (List.mem_cons_self _ _), Bool.false_eq_true, if_false]
    rw [hrec]

theorem digit_toNat_bounds {c : Char} (h : isDigitC c = true) :
    48 ≤ c.toNat ∧ c.toNat ≤ 57 := by
  simp only [isDigitC, Bool.and_eq_true, decide_eq_true_eq] at h
  obtain ⟨h1, h2⟩ := h
  rw [Char.le_def] at h1 h2
  exact ⟨h1, h2⟩

theorem natOfDigits_aux : ∀ (d : Str), d.all isDigitC = true → ∀ n : Nat,
    d.foldl (fun n c => n * 10 + (c.toNat - 48)) n < (n + 1) * 10 ^ d.length
  | [], _, n => by simp
  | c :: rest, h, n => by
    simp only [List.all_cons, Bool.and_eq_true] at h
    have hb := digit_toNat_bounds h.1
    simp only [List.foldl_cons, List.length_cons]
    calc rest.foldl (fun n c => n * 10 + (c.toNat - 48)) (n * 10 + (c.toNat - 48)) <
        (n * 10 + (c.toNat - 48) + 1) * 10 ^ rest.length :=
          natOfDigits_aux rest h.2 (n * 10 + (c.toNat - 48))
      _ ≤ ((n + 1) * 10) * 10 ^ rest.length :=
          Nat.mul_le_mul_right _ (by omega)
      _ = (n + 1) * 10 ^ (rest.length + 1) := by
          rw [pow_succ]
          ring

theorem natOfDigits_lt (d : Str) (h : d.all isDigitC = true) :
    natOfDigits d < 10 ^ d.length := by
  have := natOfDigits_aux d h 0
  simpa [natOfDigits] using this

theorem jsNat_digits (d : Str) (h : d.all isDigitC = true) :
    jsNat d = some (natOfDigits d) := by
  by_cases he : d.isEmpty = true
  · rw [List.isEmpty_iff] at he
    subst he
    rfl
  · simp only [jsNat, if_neg he, if_pos h]

/-- The normalized Date of bounded civil components stays inside the
ECMAScript time range. -/
theorem epochMs_in_range (y mo d h mi : Int)
    (hy1 : 0 ≤ y) (hy2 : y ≤ 9999) (hmo1 : -1 ≤ mo) (hmo2 : mo ≤ 98)
    (hd1 : 0 ≤ d) (hd2 : d ≤ 99) (hh1 : 0 ≤ h) (hh2 : h ≤ 111)
    (hmi1 : 0 ≤ mi) (hmi2 : mi ≤ 99) :
    (epochMsOfCivil y mo d h mi).natAbs ≤ 8640000000000000 := by
  simp only [epochMsOfCivil, daysFromCivil]
  split <;> omega

theorem matchDatePart_shape (s ds r : Str) (h : matchDatePart s = some (ds, r)) :
    ∃ d1 d2 d3 : Str, ds = d1 ++ '/' :: (d2 ++ '/' :: d3) ∧
      d1.all isDigitC = true ∧ d2.all isDigitC = true ∧ d3.all isDigitC = true ∧
      1 ≤ d1.length ∧ d1.length ≤ 2 ∧ 1 ≤ d2.length ∧ d2.length ≤ 2 ∧
      2 ≤ d3.length ∧ d3.length ≤ 4 := by
  simp only [matchDatePart] at h
  split at h
  · rename_i r2 heq1
    split at h
    · rename_i r4 heq2
      split at h
      · rename_i r6 heq3
        split at h
        · rename_i hcond
          injection h with h'
          rw [Prod.mk.injEq] at h'
          refine ⟨s.takeWhile isDigitC, r2.takeWhile isDigitC, r4.takeWhile isDigitC,
            ?_, takeWhile_all _ s, takeWhile_all _ r2, takeWhile_all _ r4,
            hcond.1, hcond.2.1, hcond.2.2.1, hcond.2.2.2.1, hcond.2.2.2.2.1,
            hcond.2.2.2.2.2⟩
          rw [← h'.1]
          simp [List.append_assoc]
        · exact absurd h (by simp)
      · exact absurd h (by simp)
    · exact absurd h (by simp)
  · exact absurd h (by simp)

theorem matchTimePart_shape (s ts r : Str) (h : matchTimePart s = some (ts, r)) :
    ∃ hh mm : Str, ts = hh ++ ':' :: mm ∧
      hh.all isDigitC = true ∧ mm.all isDigitC = true ∧
      1 ≤ hh.length ∧ hh.length ≤ 2 ∧ mm.length ≤ 2 := by
  simp only [matchTimePart] at h
  split at h
  · rename_i r2 heq1
    split at h
    · rename_i hcond
      injection h with h'
      rw [Prod.mk.injEq] at h'
      refine ⟨(s.dropWhile isWs).takeWhile isDigitC, r2.take 2, h'.1.symm,
        takeWhile_all _ _, ?_, hcond.1, hcond.2.1, ?_⟩
      · rw [take_eq_take_takeWhile isDigitC r2 2 hcond.2.2]
        exact all_take _ _ _ (takeWhile_all _ _)
      · rw [List.length_take]
        omega
    · exact absurd h (by simp)
  · exact absurd h (by simp)

theorem matchHeader_parts (s : Str) (hd : Header) (h : matchHeader s = some hd) :
    ∃ r1 r2, matchDatePart s = some (hd.dateStr, r1) ∧
      matchTimePart r1 = some (hd.timeStr, r2) := by
  simp only [matchHeader] at h
  split at h
  · exact absurd h (by simp)
  · rename_i dateStr r1 heq1
    split at h
    · exact absurd h (by simp)
    · rename_i timeStr r2 heq2
      split at h
      · exact absurd h (by simp)
      · rename_i r4 heq4
        split at h
        · exact absurd h (by simp)
        · rename_i sender r5 heq5
          split at h
          · exact absurd h (by simp)
          · rename_i msg heq6
            injection h with h'
            subst h'
            exact ⟨r1, r2, heq1, heq2⟩

theorem parseDate_digits_some (d1 d2 d3 hh mm : Str) (ampm : Option Str)
    (ha1 : d1.all isDigitC = true) (ha2 : d2.all isDigitC = true)
    (ha3 : d3.all isDigitC = true) (hah : hh.all isDigitC = true)
    (ham : mm.all isDigitC = true)
    (l12 : d1.length ≤ 2) (l22 : d2.length ≤ 2) (l32 : d3.length ≤ 4)
    (lh2 : hh.length ≤ 2) (lm2 : mm.length ≤ 2) :
    ∃ d, parseDate (d1 ++ '/' :: (d2 ++ '/' :: d3)) (hh ++ ':' :: mm) ampm =
      some d := by
  have hdn : natOfDigits d1 < 100 :=
    lt_of_lt_of_le (natOfDigits_lt d1 ha1) (Nat.pow_le_pow_right (by omega) l12)
  have hmn : natOfDigits d2 < 100 :=
    lt_of_lt_of_le (natOfDigits_lt d2 ha2) (Nat.pow_le_pow_right (by omega) l22)
  have hyn : natOfDigits d3 < 10000 :=
    lt_of_lt_of_le (natOfDigits_lt d3 ha3) (Nat.pow_le_pow_right (by omega) l32)
  have hhn : natOfDigits hh < 100 :=
    lt_of_lt_of_le (natOfDigits_lt hh hah) (Nat.pow_le_pow_right (by omega) lh2)
  have hmin : natOfDigits mm < 100 :=
    lt_of_lt_of_le (natOfDigits_lt mm ham) (Nat.pow_le_pow_right (by omega) lm2)
  simp only [parseDate]
  rw [splitOnC_append_sep (fun c => decide (c = '/')) d1 '/' (d2 ++ '/' :: d3)
      (fun x hx => digit_ne_slash (List.all_eq_true.mp ha1 x hx)) (by decide),
    splitOnC_append_sep (fun c => decide (c = '/')) d2 '/' d3
      (fun x hx => digit_ne_slash (List.all_eq_true.mp ha2 x hx)) (by decide),
    splitOnC_no_sep (fun c => decide (c = '/')) d3
      (fun x hx => digit_ne_slash (List.all_eq_true.mp ha3 x hx)),
    splitOnC_append_sep (fun c => decide (c = ':')) hh ':' mm
      (fun x hx => digit_ne_colon (List.all_eq_true.mp hah x hx)) (by decide),
    splitOnC_no_sep (fun c => decide (c = ':')) mm
      (fun x hx => digit_ne_colon (List.all_eq_true.mp ham x hx))]
  dsimp only
  rw [jsNat_digits d1 ha1, jsNat_digits d2 ha2, jsNat_digits d3 ha3,
    jsNat_digits hh hah, jsNat_digits mm ham]
  dsimp only
  refine ⟨_, if_pos ?_⟩
  apply epochMs_in_range
  · split <;> omega
  · split <;> omega
  · omega
  · omega
  · omega
  · omega
  · rcases ampm with _ | a
    · dsimp only
      omega
    · dsimp only
      split
      · omega
      · split <;> omega
  · rcases ampm with _ | a
    · dsimp only
      omega
    · dsimp only
      split
      · omega
      · split <;> omega
  · omega
  · omega

/-- Every matched header carries date and time captures that parseDate turns
into a valid (in-range) date: the monir context of the parsing loop can never
hold a null date. -/
theorem parseDate_some (s : Str) (hd : Header) (h : matchHeader s = some hd) :
    ∃ d, parseDate hd.dateStr hd.timeStr hd.ampm = some d := by
  obtain ⟨r1, r2, hdp, htp⟩ := matchHeader_parts s hd h
  obtain ⟨d1, d2, d3, hds, ha1, ha2, ha3, _, l12, _, l22, _, l32⟩ :=
    matchDatePart_shape s _ _ hdp
  obtain ⟨hh, mm, hts, hah, ham, _, lh2, lm2⟩ := matchTimePart_shape r1 _ _ htp
  rw [hds, hts]
  exact parseDate_digits_some d1 d2 d3 hh mm hd.ampm ha1 ha2 ha3 hah ham
    l12 l22 l32 lh2 lm2

theorem enhancedGo_strip (gen gen' : Nat → Str) (now now' : Int) :
    ∀ (ls : List Str) (i : Nat) (cd : Option Int) (cs : Str) (k k2 : Nat),
      (strLower cs = "monir".toList → cs.isEmpty = false → cd ≠ none) →
      (enhancedGo gen now ls i cd cs k).1.map strip =
        (enhancedGo gen' now' ls i cd cs k2).1.map strip
  | [], i, cd, cs, k, k2, _ => by simp [enhancedGo]
  | l :: rest, i, cd, cs, k, k2, inv => by
    simp only [enhancedGo]
    by_cases hemp : (trimS l).isEmpty = true
    · rw [if_pos hemp, if_pos hemp]
      exact enhancedGo_strip gen gen' now now' rest (i + 1) cd cs k k2 inv
    · rw [if_neg hemp, if_neg hemp]
      rcases hm : matchHeader (trimS l) with _ | hd
      · simp only [hm]
        rcases hdo : dateOnlyMatch (trimS l) with _ | dmy
        · simp only [hdo]
          by_cases hcs : strLower (if cs.isEmpty then "unknown".toList else cs) =
              "monir".toList
          · rw [if_pos hcs, if_pos hcs]
            have hne : cs.isEmpty = false := by
              by_contra hco
              rw [Bool.not_eq_false] at hco
              rw [if_pos hco] at hcs
              exact absurd hcs (by decide)
            rw [if_neg (by rw [hne]; exact Bool.false_ne_true)] at hcs
            rcases hcd : cd with _ | d
            · exact absurd hcd (inv hcs hne)
            · rcases hv : validateAndExtractTransactions (trimS l)
                  (if cs.isEmpty then "unknown".toList else cs)
                  ((some d).getD now) gen k now with msg | tk
              · have hv2 : validateAndExtractTransactions (trimS l)
                    (if cs.isEmpty then "unknown".toList else cs)
                    ((some d).getD now') gen' k2 now' = Except.error msg := by
                  have := validate_error_congr _ _ _ gen gen' k k2 now now' msg hv
                  simpa using this
                simp only [hv, hv2]
                exact enhancedGo_strip gen gen' now now' rest (i + 1) (some d) cs k k2
                  (fun _ _ => by simp)
              · obtain ⟨tk', hv2, hstrip⟩ :=
                  validate_ok_congr _ _ _ gen gen' k k2 now now' tk hv
                have hv3 : validateAndExtractTransactions (trimS l)
                    (if cs.isEmpty then "unknown".toList else cs)
                    ((some d).getD now') gen' k2 now' = Except.ok tk' := by
                  simpa using hv2
                simp only [hv, hv3, List.map_append]
                rw [hstrip, enhancedGo_strip gen gen' now now' rest (i + 1) (some d) cs
                  tk.2 tk'.2 (fun _ _ => by simp)]
          · rw [if_neg hcs, if_neg hcs]
            exact enhancedGo_strip gen gen' now now' rest (i + 1) cd cs k k2 inv
        · simp only [hdo]
          refine enhancedGo_strip gen gen' now now' rest (i + 1) _ cs k k2 ?_
          intro h1 h2
          rcases hpd : parseDateFromComponents dmy.1 dmy.2.1 dmy.2.2 with _ | t
          · simpa [Option.or] using inv h1 h2
          · simp [Option.or]
      · simp only [hm]
        rcases hp : parseDate hd.dateStr hd.timeStr hd.ampm with _ | d
        · obtain ⟨d0, hd0⟩ := parseDate_some (trimS l) hd hm
          rw [hd0] at hp
          exact absurd hp (by simp)
        · simp only [hp]
          by_cases hs : strLower (normalizeSenderName hd.sender) = "monir".toList
          · rw [if_pos hs, if_pos hs]
            rcases hv : validateAndExtractTransactions hd.message
                (normalizeSenderName hd.sender) d gen k now with msg | tk
            · have hv2 := validate_error_congr _ _ _ gen gen' k k2 now now' msg hv
              simp only [hv, hv2]
              exact enhancedGo_strip gen gen' now now' rest (i + 1) (some d) _ k k2
                (fun _ _ => by simp)
            · obtain ⟨tk', hv2, hstrip⟩ :=
                validate_ok_congr _ _ _ gen gen' k k2 now now' tk hv
              simp only [hv, hv2, List.map_append]
              rw [hstrip, enhancedGo_strip gen gen' now now' rest (i + 1) (some d) _
                tk.2 tk'.2 (fun _ _ => by simp)]
          · rw [if_neg hs, if_neg hs]
            exact enhancedGo_strip gen gen' now now' rest (i + 1) (some d) _ k k2
              (fun _ _ => by simp)

/-- C9: parsing is deterministic modulo the generated ids and the wall-clock
timestamps: two runs of parseFile over the same content, with arbitrary id
supplies and clock readings, return transaction lists with identical
(sender, item, amount, date) tuples, in the same order. -/
theorem c9_parse_deterministic (gen gen' : Nat → Str) (now now' : Int)
    (content : Str) :
    (parseFile gen now content).transactions.map strip =
      (parseFile gen' now' content).transactions.map strip := by
  simp only [parseFile, pipelineTxns, removeDuplicates]
  exact removeDupAux_strip _ _ []
    (categorize_strip _ _
      (enhancedGo_strip gen gen' now now' (processedLines content) 0 none [] 0 0
        (fun _ h2 => by simp at h2)))
